import Mathlib

/-!
Formal model of the collision-detection pre-pass of the cascade library
(src/sim_propagate.cpp and src/sim_bvh.cpp): the interval arithmetic
helper, the Horner evaluation of Taylor polynomials over an interval,
the per-(chunk, particle) AABB kernel, the worker-local and global AABB
reduction, the Morton sort, and the level-synchronous BVH builder.

Machine floating-point values are modelled by exact rationals extended
with the two infinities (`EFloat`); the outward double → float roundings
(`std::nextafter` towards ∓∞ after a narrowing cast) are modelled by
arbitrary functions below / above the identity.
-/

/-- Floating-point values extended with the two infinities, modelled
exactly: minus infinity is `⊥`, plus infinity is `⊤`. -/
abbrev EFloat : Type := WithBot (WithTop ℚ)

/-- Embedding of a finite value into `EFloat`. -/
def fv (q : ℚ) : EFloat := ((q : WithTop ℚ) : WithBot (WithTop ℚ))

/-- Plus infinity (`finf` in src/sim_propagate.cpp, line 315). -/
def finf : EFloat := ((⊤ : WithTop ℚ) : WithBot (WithTop ℚ))

/-- Minus infinity (`-finf` in the source). -/
def ninf : EFloat := (⊥ : WithBot (WithTop ℚ))

/-- The interval helper of src/sim_propagate.cpp, lines 51-58: a closed
interval represented by its two endpoints (exact rationals standing for
the C++ doubles). -/
structure ival where
  lower : ℚ
  upper : ℚ
deriving DecidableEq

/-- The `ival(val)` constructor (line 56): a degenerate point interval. -/
def ival.ofRat (v : ℚ) : ival := ⟨v, v⟩

/-- `operator+` on intervals (lines 61-64): componentwise addition. -/
def ival.add (a b : ival) : ival := ⟨a.lower + b.lower, a.upper + b.upper⟩

/-- `operator*` on intervals (lines 66-77): all four endpoint products,
then their min and max. -/
def ival.mul (a b : ival) : ival :=
  let tmp1 := a.lower * b.lower
  let tmp2 := a.lower * b.upper
  let tmp3 := a.upper * b.lower
  let tmp4 := a.upper * b.upper
  ⟨min (min tmp1 tmp2) (min tmp3 tmp4), max (max tmp1 tmp2) (max tmp3 tmp4)⟩

/-- Membership of a real (rational) value in an interval. -/
def ival.mem (x : ℚ) (a : ival) : Prop := a.lower ≤ x ∧ x ≤ a.upper

/-- The accumulator of the `horner_eval` loop in src/sim_propagate.cpp,
lines 509-516, after `k` iterations: the loop starts with
`acc = ival(ptr[order])` and the `o`-th iteration (for `o = 1 .. order`)
performs `acc = ival(ptr[order - o]) + acc * h_int`. -/
def horner_evalA (order : ℕ) (c : ℕ → ℚ) (h : ival) : ℕ → ival
  | 0 => ival.ofRat (c order)
  | k + 1 => ival.add (ival.ofRat (c (order - (k + 1)))) (ival.mul (horner_evalA order c h k) h)

/-- The polynomial interval evaluator `horner_eval` of
src/sim_propagate.cpp, lines 509-516: the loop run for `order`
iterations. -/
def horner_eval (order : ℕ) (c : ℕ → ℚ) (h : ival) : ival :=
  horner_evalA order c h order

/-- Horner evaluation in ascending-power order over a coefficient list
`[c_0, …, c_O]`: `c_0 + (c_1 + (… + (c_{O-1} + c_O·h)·h …)·h)·h`, the
innermost term being the last list entry. -/
def hornerAsc (h : ival) : List ℚ → ival
  | [] => ival.ofRat 0
  | [c0] => ival.ofRat c0
  | c0 :: c1 :: rest => ival.add (ival.ofRat c0) (ival.mul (hornerAsc h (c1 :: rest)) h)

/-- Modelled from the spec: the literal formula of spec §4.2 / §8 C8,
`c[O] + (c[O−1] + (… + (c[1] + c[0]·h)·h …)·h)·h`, whose innermost
Horner term uses `c[0]` and whose outermost addition uses `c[O]`.  It is
the ascending Horner evaluation of the reversed coefficient array. -/
def horner_eval_spec (order : ℕ) (c : ℕ → ℚ) (h : ival) : ival :=
  hornerAsc h (((List.range (order + 1)).map c).reverse)

/-- The concrete coefficient array `[1, 2]` used to separate the code's
Horner order from the spec's formula. -/
def hornerCex : ℕ → ℚ := fun i => if i = 0 then 1 else 2

theorem horner_evalA_eq_hornerAsc (order : ℕ) (c : ℕ → ℚ) (h : ival) :
    ∀ k, k ≤ order →
      horner_evalA order c h k = hornerAsc h ((List.range (k + 1)).map fun i => c (order - k + i)) := by
  intro k
  induction k with
  | zero =>
    intro _
    simp [horner_evalA, hornerAsc, List.range_succ]
  | succ k ih =>
    intro hk
    have hk' : k ≤ order := Nat.le_of_succ_le hk
    have h1 : List.range (k + 1 + 1) = 0 :: (List.range (k + 1)).map Nat.succ :=
      List.range_succ_eq_map (k + 1)
    rw [h1]
    have h2 : ((List.range (k + 1)).map Nat.succ).map (fun i => c (order - (k + 1) + i))
        = (List.range (k + 1)).map (fun i => c (order - k + i)) := by
      rw [List.map_map]
      refine List.map_congr_left ?_
      intro a _
      have : order - (k + 1) + Nat.succ a = order - k + a := by omega
      simp [Function.comp, this]
    have h3 : ((List.range (k + 1)).map fun i => c (order - k + i)) ≠ [] := by
      simp [List.range_succ]
    rw [List.map_cons, h2]
    have h4 : hornerAsc h (c (order - (k + 1) + 0) :: (List.range (k + 1)).map fun i => c (order - k + i))
        = ival.add (ival.ofRat (c (order - (k + 1) + 0)))
            (ival.mul (hornerAsc h ((List.range (k + 1)).map fun i => c (order - k + i))) h) := by
      rcases hl : (List.range (k + 1)).map fun i => c (order - k + i) with _ | ⟨x, xs⟩
      · exact absurd hl h3
      · simp [hornerAsc]
    rw [h4, ← ih hk']
    have : order - (k + 1) + 0 = order - (k + 1) := by omega
    simp [horner_evalA, this]

/-- C8 (amended): the polynomial interval evaluator returns
`c[0] + (c[1] + (… + (c[O−1] + c[O]·h)·h …)·h)·h` — the innermost Horner
term uses `c[O]` and the outermost addition uses `c[0]` — computed with
the C1 interval add and multiply. -/
theorem horner_eval_is_ascending (order : ℕ) (c : ℕ → ℚ) (h : ival) :
    horner_eval order c h = hornerAsc h ((List.range (order + 1)).map c) := by
  rw [horner_eval, horner_evalA_eq_hornerAsc order c h order (le_refl order)]
  congr 1
  refine List.map_congr_left ?_
  intro a _
  congr 1
  omega

/-- C8 (counterexample): with coefficients `c = [1, 2]` and the point
interval `h = [3, 3]`, the code's `horner_eval` returns `1 + 2·3 = 7`
while the spec's literal formula `c[1] + c[0]·h` gives `2 + 1·3 = 5`, so
the evaluator does not return the interval the claim describes. -/
theorem horner_eval_spec_formula_cex :
    horner_eval 1 hornerCex ⟨3, 3⟩ = ⟨7, 7⟩ ∧
      horner_eval_spec 1 hornerCex ⟨3, 3⟩ = ⟨5, 5⟩ ∧
      horner_eval 1 hornerCex ⟨3, 3⟩ ≠ horner_eval_spec 1 hornerCex ⟨3, 3⟩ := by
  have h1 : horner_eval 1 hornerCex ⟨3, 3⟩ = ⟨7, 7⟩ := by
    norm_num [horner_eval, horner_evalA, horner_eval_spec, hornerAsc, hornerCex,
      ival.add, ival.mul, ival.ofRat]
  have h2 : horner_eval_spec 1 hornerCex ⟨3, 3⟩ = ⟨5, 5⟩ := by
    norm_num [horner_eval, horner_evalA, horner_eval_spec, hornerAsc, hornerCex,
      ival.add, ival.mul, ival.ofRat, List.range_succ]
  refine ⟨h1, h2, ?_⟩
  rw [h1, h2]
  intro h
  exact absurd (congrArg ival.lower h) (by norm_num)

/-- A value in a point interval. -/
theorem ival.mem_ofRat (v : ℚ) : ival.mem v (ival.ofRat v) := ⟨le_refl v, le_refl v⟩

/-- Interval addition is sound for membership. -/
theorem ival.mem_add {a b : ival} {x y : ℚ} (hx : ival.mem x a) (hy : ival.mem y b) :
    ival.mem (x + y) (ival.add a b) :=
  ⟨add_le_add hx.1 hy.1, add_le_add hx.2 hy.2⟩

/-- For fixed `m`, the product `m * y` with `y ∈ [bl, bu]` lies between the
two endpoint products. -/
theorem mul_endpoint_bounds (m bl bu y : ℚ) (h1 : bl ≤ y) (h2 : y ≤ bu) :
    min (m * bl) (m * bu) ≤ m * y ∧ m * y ≤ max (m * bl) (m * bu) := by
  rcases le_total 0 m with hm | hm
  · exact ⟨le_trans (min_le_left _ _) (mul_le_mul_of_nonneg_left h1 hm),
      le_trans (mul_le_mul_of_nonneg_left h2 hm) (le_max_right _ _)⟩
  · exact ⟨le_trans (min_le_right _ _) (mul_le_mul_of_nonpos_left h2 hm),
      le_trans (mul_le_mul_of_nonpos_left h1 hm) (le_max_left _ _)⟩

/-- Interval multiplication (all four endpoint products, min/max) is sound
for membership. -/
theorem ival.mem_mul {a b : ival} {x y : ℚ} (hx : ival.mem x a) (hy : ival.mem y b) :
    ival.mem (x * y) (ival.mul a b) := by
  obtain ⟨hx1, hx2⟩ := hx
  obtain ⟨hy1, hy2⟩ := hy
  have hvar := mul_endpoint_bounds y a.lower a.upper x hx1 hx2
  have h1 := mul_endpoint_bounds a.lower b.lower b.upper y hy1 hy2
  have h2 := mul_endpoint_bounds a.upper b.lower b.upper y hy1 hy2
  constructor
  · calc min (min (a.lower * b.lower) (a.lower * b.upper))
          (min (a.upper * b.lower) (a.upper * b.upper))
        ≤ min (a.lower * y) (a.upper * y) := min_le_min h1.1 h2.1
      _ = min (y * a.lower) (y * a.upper) := by rw [mul_comm, mul_comm (a.upper) y]
      _ ≤ y * x := hvar.1
      _ = x * y := mul_comm y x
  · calc x * y = y * x := mul_comm x y
      _ ≤ max (y * a.lower) (y * a.upper) := hvar.2
      _ = max (a.lower * y) (a.upper * y) := by rw [mul_comm y, mul_comm y]
      _ ≤ max (max (a.lower * b.lower) (a.lower * b.upper))
          (max (a.upper * b.lower) (a.upper * b.upper)) := max_le_max h1.2 h2.2

/-- The exact value of the Taylor polynomial with coefficients in
ascending powers, at argument `x`. -/
def polyEval (order : ℕ) (c : ℕ → ℚ) (x : ℚ) : ℚ :=
  ∑ i ∈ Finset.range (order + 1), c i * x ^ i

/-- Soundness of the Horner loop accumulator: after `k` iterations it
encloses the upper `k+1` coefficients' partial polynomial. -/
theorem horner_evalA_mem (order : ℕ) (c : ℕ → ℚ) (h : ival) (x : ℚ) (hx : ival.mem x h) :
    ∀ k, k ≤ order →
      ival.mem (∑ i ∈ Finset.range (k + 1), c (order - k + i) * x ^ i) (horner_evalA order c h k) := by
  intro k
  induction k with
  | zero =>
    intro _
    simpa [horner_evalA] using ival.mem_ofRat (c order)
  | succ k ih =>
    intro hk
    have hk' : k ≤ order := Nat.le_of_succ_le hk
    have hS : (∑ i ∈ Finset.range (k + 1 + 1), c (order - (k + 1) + i) * x ^ i)
        = c (order - (k + 1)) + (∑ i ∈ Finset.range (k + 1), c (order - k + i) * x ^ i) * x := by
      rw [Finset.sum_range_succ']
      simp only [pow_zero, mul_one, Nat.add_zero]
      rw [Finset.sum_mul]
      have hcong : ∀ i ∈ Finset.range (k + 1),
          c (order - (k + 1) + (i + 1)) * x ^ (i + 1) = c (order - k + i) * x ^ i * x := by
        intro i _
        have hidx : order - (k + 1) + (i + 1) = order - k + i := by omega
        rw [hidx, pow_succ]
        ring
      rw [Finset.sum_congr rfl hcong]
      ring
    rw [hS]
    have hmul := ival.mem_mul (ih hk') hx
    have hadd := ival.mem_add (ival.mem_ofRat (c (order - (k + 1)))) hmul
    simpa [horner_evalA] using hadd

/-- Soundness of `horner_eval`: for any argument inside the interval, the
exact polynomial value lies in the returned interval. -/
theorem horner_eval_mem (order : ℕ) (c : ℕ → ℚ) (h : ival) (x : ℚ) (hx : ival.mem x h) :
    ival.mem (polyEval order c x) (horner_eval order c h) := by
  have hmem := horner_evalA_mem order c h x hx order (le_refl order)
  have heq : (∑ i ∈ Finset.range (order + 1), c (order - order + i) * x ^ i)
      = polyEval order c x := by
    refine Finset.sum_congr rfl ?_
    intro i _
    congr 2
    omega
  rw [horner_eval]
  rw [heq] at hmem
  exact hmem

/-- The result index of `std::upper_bound` (first element strictly greater
than `v`) over a sorted list, as the length of the early-stopping scan
(src/sim_propagate.cpp, line 461). -/
def upperB : List ℚ → ℚ → ℕ
  | [], _ => 0
  | t :: ts, v => if v < t then 0 else upperB ts v + 1

/-- The result index of `std::lower_bound` (first element greater than or
equal to `v`) over a sorted list (line 464). -/
def lowerB : List ℚ → ℚ → ℕ
  | [], _ => 0
  | t :: ts, v => if v ≤ t then 0 else lowerB ts v + 1

/-- Start time of substep `j`, relative to the superstep start: zero for
the first substep, else the previous substep's end time (line 481). -/
def ss_start (tcoords : List ℚ) (j : ℕ) : ℚ :=
  if j = 0 then 0 else tcoords.getD (j - 1) 0

/-- The evaluation interval for substep `j` against chunk `[cb, ce]`:
the intersection of substep and chunk, referred to the substep start
(lines 486-492). -/
def substep_iv (tcoords : List ℚ) (cb ce : ℚ) (j : ℕ) : ival :=
  ⟨max cb (ss_start tcoords j) - ss_start tcoords j,
    min ce (tcoords.getD j 0) - ss_start tcoords j⟩

/-- The interval returned by the polynomial evaluation for substep `j`
(lines 509-520); `tc` is the flat per-coordinate Taylor-coefficient
buffer, indexed as `tc (j * (order + 1) + o)`. -/
def aabb_x_int (order : ℕ) (tc : ℕ → ℚ) (tcoords : List ℚ) (cb ce : ℚ) (j : ℕ) : ival :=
  horner_eval order (fun o => tc (j * (order + 1) + o)) (substep_iv tcoords cb ce j)

/-- One iteration of the substep loop (lines 472-545) for a single
coordinate: evaluate the polynomial over the intersection interval,
round the lower bound down by `rdD` and the upper bound up by `rdU`
(modelling `std::nextafter(static_cast<float>(·), ∓finf)`), and update
the running min/max. -/
def aabb_step (order : ℕ) (tc : ℕ → ℚ) (tcoords : List ℚ) (cb ce : ℚ) (rdD rdU : ℚ → ℚ)
    (acc : EFloat × EFloat) (j : ℕ) : EFloat × EFloat :=
  let x_int := aabb_x_int order tc tcoords cb ce j
  (min acc.1 (fv (rdD x_int.lower)), max acc.2 (fv (rdU x_int.upper)))

/-- First substep index of the range overlapping the chunk: the first
substep whose end time is strictly greater than the chunk begin
(line 461). -/
def ss_lo (tcoords : List ℚ) (cb : ℚ) : ℕ := upperB tcoords cb

/-- One-past-the-last substep index of the range overlapping the chunk:
the first substep (at or after `ss_lo`) whose end time is ≥ the chunk
end, bumped up by one unless already at the end (lines 464-468). -/
def ss_hi (tcoords : List ℚ) (cb ce : ℚ) : ℕ :=
  let lo := ss_lo tcoords cb
  let hi0 := lo + lowerB (tcoords.drop lo) ce
  if hi0 = tcoords.length then hi0 else hi0 + 1

/-- The per-(chunk, particle) AABB kernel for a single scalar coordinate
(src/sim_propagate.cpp, lines 440-546): initialise `(lb, ub)` to
`(+∞, −∞)`, then fold the substep loop over the located substep range. -/
def aabb_kernel (order : ℕ) (tc : ℕ → ℚ) (tcoords : List ℚ) (cb ce : ℚ)
    (rdD rdU : ℚ → ℚ) : EFloat × EFloat :=
  (List.range' (ss_lo tcoords cb) (ss_hi tcoords cb ce - ss_lo tcoords cb)).foldl
    (aabb_step order tc tcoords cb ce rdD rdU) (finf, ninf)

/-- Folding the substep loop can only decrease the accumulated lower
bound and increase the accumulated upper bound. -/
theorem aabb_fold_mono (order : ℕ) (tc : ℕ → ℚ) (tcoords : List ℚ) (cb ce : ℚ)
    (rdD rdU : ℚ → ℚ) :
    ∀ (l : List ℕ) (acc : EFloat × EFloat),
      (l.foldl (aabb_step order tc tcoords cb ce rdD rdU) acc).1 ≤ acc.1 ∧
        acc.2 ≤ (l.foldl (aabb_step order tc tcoords cb ce rdD rdU) acc).2 := by
  intro l
  induction l with
  | nil => exact fun acc => ⟨le_refl _, le_refl _⟩
  | cons a l ih =>
    intro acc
    refine ⟨le_trans (ih _).1 ?_, le_trans ?_ (ih _).2⟩
    · exact min_le_left _ _
    · exact le_max_left _ _

/-- Any substep index in the folded list contributes its rounded interval
to the accumulated bounds. -/
theorem aabb_fold_mem (order : ℕ) (tc : ℕ → ℚ) (tcoords : List ℚ) (cb ce : ℚ)
    (rdD rdU : ℚ → ℚ) :
    ∀ (l : List ℕ) (acc : EFloat × EFloat) (j : ℕ), j ∈ l →
      (l.foldl (aabb_step order tc tcoords cb ce rdD rdU) acc).1
          ≤ fv (rdD (aabb_x_int order tc tcoords cb ce j).lower) ∧
        fv (rdU (aabb_x_int order tc tcoords cb ce j).upper)
          ≤ (l.foldl (aabb_step order tc tcoords cb ce rdD rdU) acc).2 := by
  intro l
  induction l with
  | nil => exact fun acc j hj => absurd hj (List.not_mem_nil j)
  | cons a l ih =>
    intro acc j hj
    rcases List.mem_cons.mp hj with hj | hj
    · subst hj
      constructor
      · refine le_trans (aabb_fold_mono order tc tcoords cb ce rdD rdU l _).1 ?_
        exact min_le_right _ _
      · refine le_trans ?_ (aabb_fold_mono order tc tcoords cb ce rdD rdU l _).2
        exact le_max_right _ _
    · exact ih _ j hj

/-- The finite-value embedding is monotone. -/
theorem fv_le_fv {a b : ℚ} (h : a ≤ b) : fv a ≤ fv b := by
  simpa [fv] using h

/-- C1: AABB containment.  For a particle whose AABB is computed, for a
chunk `[cb, ce]`, for every substep `j` of the located overlapping range
(spec §4.5: first substep whose end time is strictly greater than `cb`,
up to and including the first substep whose end time is ≥ `ce`) and every
time `t` in the intersection of the substep and the chunk, the exact
value of the substep's Taylor polynomial at `t - ss_start` lies inside
the stored per-(chunk, particle) interval `[lb, ub]`, for any outward
roundings `rdD ≤ id ≤ rdU`.  The statement is coordinate-generic and so
covers each of x, y, z, r. -/
theorem aabb_containment (order : ℕ) (tc : ℕ → ℚ) (tcoords : List ℚ) (cb ce : ℚ)
    (rdD rdU : ℚ → ℚ) (hD : ∀ q, rdD q ≤ q) (hU : ∀ q, q ≤ rdU q)
    (j : ℕ) (hlo : ss_lo tcoords cb ≤ j) (hhi : j < ss_hi tcoords cb ce)
    (t : ℚ) (ht1 : max cb (ss_start tcoords j) ≤ t)
    (ht2 : t ≤ min ce (tcoords.getD j 0)) :
    (aabb_kernel order tc tcoords cb ce rdD rdU).1
        ≤ fv (polyEval order (fun o => tc (j * (order + 1) + o)) (t - ss_start tcoords j)) ∧
      fv (polyEval order (fun o => tc (j * (order + 1) + o)) (t - ss_start tcoords j))
        ≤ (aabb_kernel order tc tcoords cb ce rdD rdU).2 := by
  have hmemj : j ∈ List.range' (ss_lo tcoords cb) (ss_hi tcoords cb ce - ss_lo tcoords cb) := by
    rw [List.mem_range'_1]
    omega
  have hxmem : ival.mem (t - ss_start tcoords j) (substep_iv tcoords cb ce j) :=
    ⟨sub_le_sub_right ht1 _, sub_le_sub_right ht2 _⟩
  have hpoly := horner_eval_mem order (fun o => tc (j * (order + 1) + o))
    (substep_iv tcoords cb ce j) (t - ss_start tcoords j) hxmem
  have hfold := aabb_fold_mem order tc tcoords cb ce rdD rdU
    (List.range' (ss_lo tcoords cb) (ss_hi tcoords cb ce - ss_lo tcoords cb)) (finf, ninf) j hmemj
  constructor
  · refine le_trans hfold.1 (fv_le_fv ?_)
    exact le_trans (hD _) hpoly.1
  · refine le_trans (fv_le_fv ?_) hfold.2
    exact le_trans hpoly.2 (hU _)

/-- Concrete substep end times for the containment witness: one substep
ending at time 1. -/
def tcoordsW : List ℚ := [1]

/-- Concrete Taylor coefficients for the containment witness: the
polynomial `x(t) = t` of order 1 (coefficients `[0, 1]`). -/
def tcW : ℕ → ℚ := fun o => if o = 0 then 0 else 1

theorem aabb_containment_witness :
    (aabb_kernel 1 tcW tcoordsW 0 1 id id).1
        ≤ fv (polyEval 1 (fun o => tcW (0 * (1 + 1) + o)) (1 / 2 - ss_start tcoordsW 0)) ∧
      fv (polyEval 1 (fun o => tcW (0 * (1 + 1) + o)) (1 / 2 - ss_start tcoordsW 0))
        ≤ (aabb_kernel 1 tcW tcoordsW 0 1 id id).2 := by
  refine aabb_containment 1 tcW tcoordsW 0 1 id id (fun q => le_refl q) (fun q => le_refl q)
    0 ?_ ?_ (1 / 2) ?_ ?_
  · norm_num [ss_lo, upperB, tcoordsW]
  · norm_num [ss_hi, ss_lo, upperB, lowerB, tcoordsW]
  · norm_num [ss_start, tcoordsW]
  · norm_num [ss_start, tcoordsW, List.getD]

/-- The worker-local per-chunk reduction of the global-AABB pass
(src/sim_propagate.cpp, lines 560-594), for the x coordinate: fold over
the worker's particles, starting from `(+∞, −∞)`.  The source updates
`local_lb` from `x_lb_ptr` and — as written at lines 589-592 — updates
`local_ub` from `x_lb_ptr` as well (not from `x_ub_ptr`); this is
embedded faithfully, so `x_ub_ptr` is in scope but never read, exactly
as in the code. -/
def local_reduce_x (x_lb_ptr x_ub_ptr : ℕ → EFloat) (ps : List ℕ) : EFloat × EFloat :=
  ps.foldl (fun acc p => (min acc.1 (x_lb_ptr p), max acc.2 (x_lb_ptr p))) (finf, ninf)

/-- The effect of one `lb_updater` CAS loop (lines 597-608): the atomic
ends up holding `min(val, orig)`. -/
def lb_updater (out val : EFloat) : EFloat := min val out

/-- The effect of one `ub_updater` CAS loop (lines 610-622): the atomic
ends up holding `max(val, orig)`. -/
def ub_updater (out val : EFloat) : EFloat := max val out

/-- The global AABB for one chunk and the x coordinate after every worker
has folded its local bounds into the atomics (lines 624-632), the atomic
initial values being `(+∞, −∞)` (the default construction of the atomic
lb/ub objects lives in sim_data.hpp, outside the given sources; the
initial values are modelled from the spec's reduction semantics). -/
def global_reduce_x (x_lb_ptr x_ub_ptr : ℕ → EFloat) (workers : List (List ℕ)) :
    EFloat × EFloat :=
  workers.foldl
    (fun g w =>
      let loc := local_reduce_x x_lb_ptr x_ub_ptr w
      (lb_updater g.1 loc.1, ub_updater g.2 loc.2))
    (finf, ninf)

/-- The concrete per-particle lower bounds for the reducer bug input:
particle 0 has x lower bound 0. -/
def xlbW : ℕ → EFloat := fun _ => fv 0

/-- The concrete per-particle upper bounds for the reducer bug input:
particle 0 has x upper bound 1. -/
def xubW : ℕ → EFloat := fun _ => fv 1

/-- C2 (code bug): with a single worker owning the single particle 0,
whose per-particle AABB is `[0, 1]`, the code's global upper bound comes
out as 0 — the maximum of the per-particle *lower* bounds, because the
local pass reads `x_lb_ptr` when updating `local_ub` — whereas the
claimed value, the maximum of the per-particle upper bounds, is 1. -/
theorem global_aabb_ub_reads_lb :
    (global_reduce_x xlbW xubW [[0]]).1 = fv 0 ∧
      (global_reduce_x xlbW xubW [[0]]).2 = fv 0 ∧
      List.foldl (fun acc p => max acc (xubW p)) ninf [0] = fv 1 ∧
      (global_reduce_x xlbW xubW [[0]]).2 ≠ fv 1 := by
  refine ⟨by decide, by decide, by decide, by decide⟩

/-- The number of regular batches (src/sim_propagate.cpp, line 260). -/
def n_batches (nparts batch_size : ℕ) : ℕ := nparts / batch_size

/-- The scalar remainder (line 262); the source computes it but no code
consumes it (`TODO scalar remainder`, line 318). -/
def s_rem (nparts batch_size : ℕ) : ℕ := nparts % batch_size

/-- Particle `p` gets its AABBs written by the integration phase iff some
batch of the parallel loop over `n_batches` batches covers it (lines
338-341 and 656): batch `idx` covers `[idx*B, idx*B + B)`. -/
def aabb_written (nparts batch_size p : ℕ) : Prop :=
  ∃ idx, idx < n_batches nparts batch_size ∧
    idx * batch_size ≤ p ∧ p < idx * batch_size + batch_size

/-- C3 (code bug): with 5 particles and batch width 4, particle 4 — one
of the `P mod B` remainder particles — is covered by no batch, so its
per-(chunk, particle) AABB is never computed: the scalar tail is a TODO
in the source. -/
theorem scalar_tail_missing :
    s_rem 5 4 ≠ 0 ∧ 4 < 5 ∧ ¬ aabb_written 5 4 4 := by
  refine ⟨by norm_num [s_rem], by norm_num, ?_⟩
  rintro ⟨idx, h1, h2, h3⟩
  have h4 : n_batches 5 4 = 1 := by norm_num [n_batches]
  rw [h4] at h1
  omega

/-- Initialisation of a chunk's index vector for indirect sorting
(src/sim_propagate.cpp, lines 641-654): `vidx[i] = i`. -/
def vidx_init (nparts : ℕ) : List ℕ := List.range nparts

/-- The indirect sort of the index vector by Morton code (lines 211-215):
`tbb::parallel_sort(vidx, vidx + nparts, mcodes[idx1] < mcodes[idx2])`.
The sort's specified result — a permutation of the indices arranging the
keys in nondecreasing order — is embedded as an insertion sort under the
companion non-strict key relation. -/
def vidx_sorted (mcodes : ℕ → ℕ) (nparts : ℕ) : List ℕ :=
  List.insertionSort (fun i j => mcodes i ≤ mcodes j) (vidx_init nparts)

/-- The `isort_apply` helper (lines 217-225): gather `src` through the
sorted index vector, `out[i] = src[vidx[i]]`. -/
def isort_apply {α : Type} (vidx : List ℕ) (src : ℕ → α) : List α :=
  vidx.map src

/-- The sorted Morton codes of a chunk (line 240). -/
def srt_mcodes (mcodes : ℕ → ℕ) (nparts : ℕ) : List ℕ :=
  isort_apply (vidx_sorted mcodes nparts) mcodes

/-- Reading a gathered array at a valid index. -/
theorem isort_apply_getD {α : Type} (vidx : List ℕ) (src : ℕ → α) (d : α) (i : ℕ)
    (h : i < vidx.length) :
    (isort_apply vidx src).getD i d = src (vidx.getD i 0) := by
  have h2 : i < (vidx.map src).length := by simpa using h
  rw [isort_apply, List.getD_eq_getElem _ d h2, List.getD_eq_getElem _ 0 h]
  simp

/-- C6: sort correctness.  After the Morton encode/sort phase of a chunk,
the sorted code array is nondecreasing, the sorted arrays are the gather
of the unsorted ones through `vidx` (stated for the codes and for an
arbitrary per-particle array, covering the lb/ub coordinate arrays), and
`vidx` is a permutation of `0..P`. -/
theorem morton_sort_correct (mcodes : ℕ → ℕ) (nparts : ℕ) (src : ℕ → EFloat) :
    (∀ i, i + 1 < nparts →
        (srt_mcodes mcodes nparts).getD i 0 ≤ (srt_mcodes mcodes nparts).getD (i + 1) 0) ∧
      (∀ i, i < nparts →
        (srt_mcodes mcodes nparts).getD i 0 = mcodes ((vidx_sorted mcodes nparts).getD i 0)) ∧
      (∀ i, i < nparts →
        (isort_apply (vidx_sorted mcodes nparts) src).getD i ninf
          = src ((vidx_sorted mcodes nparts).getD i 0)) ∧
      (vidx_sorted mcodes nparts).Perm (List.range nparts) := by
  have hlen : (vidx_sorted mcodes nparts).length = nparts := by
    simp [vidx_sorted, vidx_init]
  have hgath : ∀ i, i < nparts →
      (srt_mcodes mcodes nparts).getD i 0 = mcodes ((vidx_sorted mcodes nparts).getD i 0) := by
    intro i hi
    exact isort_apply_getD _ mcodes 0 i (by rw [hlen]; exact hi)
  have hgath2 : ∀ i, i < nparts →
      (isort_apply (vidx_sorted mcodes nparts) src).getD i ninf
        = src ((vidx_sorted mcodes nparts).getD i 0) := by
    intro i hi
    exact isort_apply_getD _ src ninf i (by rw [hlen]; exact hi)
  haveI : IsTotal ℕ (fun i j => mcodes i ≤ mcodes j) := ⟨fun a b => Nat.le_total _ _⟩
  haveI : IsTrans ℕ (fun i j => mcodes i ≤ mcodes j) :=
    ⟨fun a b c hab hbc => Nat.le_trans hab hbc⟩
  have hsorted : List.Sorted (fun i j => mcodes i ≤ mcodes j) (vidx_sorted mcodes nparts) :=
    List.sorted_insertionSort (fun i j => mcodes i ≤ mcodes j) (vidx_init nparts)
  refine ⟨?_, hgath, hgath2, ?_⟩
  · intro i hi
    have h1 : i < (vidx_sorted mcodes nparts).length := by rw [hlen]; omega
    have h2 : i + 1 < (vidx_sorted mcodes nparts).length := by rw [hlen]; exact hi
    have hrel := List.Sorted.rel_get_of_lt hsorted (a := ⟨i, h1⟩) (b := ⟨i + 1, h2⟩)
      (by simp [Fin.lt_def])
    rw [hgath i (by omega), hgath (i + 1) hi, List.getD_eq_getElem _ 0 h1,
      List.getD_eq_getElem _ 0 h2]
    simpa [List.get_eq_getElem] using hrel
  · simpa [vidx_init] using
      List.perm_insertionSort (fun i j => mcodes i ≤ mcodes j) (vidx_init nparts)

/-- A 4D box of float bounds, one entry per tracked coordinate
(x, y, z, r). -/
structure Box4 where
  x : EFloat
  y : EFloat
  z : EFloat
  r : EFloat
deriving DecidableEq

/-- `default_lb` of src/sim_bvh.cpp, line 103: all `+∞`. -/
def default_lb : Box4 := ⟨finf, finf, finf, finf⟩

/-- `default_ub` of src/sim_bvh.cpp, line 104: all `−∞`. -/
def default_ub : Box4 := ⟨ninf, ninf, ninf, ninf⟩

/-- Componentwise minimum of two boxes. -/
def minBox (a b : Box4) : Box4 := ⟨min a.x b.x, min a.y b.y, min a.z b.z, min a.r b.r⟩

/-- Componentwise maximum of two boxes. -/
def maxBox (a b : Box4) : Box4 := ⟨max a.x b.x, max a.y b.y, max a.z b.z, max a.r b.r⟩

/-- `sim_data::bvh_node`: the node record of the BVH tree.  The C++
fields `begin` and `end` are Lean keywords and are renamed `nbegin` and
`nend`. -/
structure bvh_node where
  nbegin : ℕ
  nend : ℕ
  parent : Int
  left : Int
  right : Int
  lb : Box4
  ub : Box4
  nn_level : ℕ
  split_idx : ℕ
deriving DecidableEq

/-- Default node used for out-of-range list reads. -/
def dummy_node : bvh_node := ⟨0, 0, -1, -1, -1, default_lb, default_ub, 0, 0⟩

/-- Scan for the first index at or after `b` (within `cnt` further
elements) whose Morton code has bit `pos` set; `b + cnt` if none. -/
def firstFlipA (mc : ℕ → ℕ) (pos : ℕ) : ℕ → ℕ → ℕ
  | b, 0 => b
  | b, cnt + 1 => if (mc b).testBit pos then b else firstFlipA mc pos (b + 1) cnt

/-- The `std::lower_bound` of src/sim_bvh.cpp, lines 215-218 and 236-239,
with predicate `(mcode & (1 << (63 - split))) < 1`: on the partitioned
ranges this construction maintains, it returns the first index in
`[b, e)` whose bit `63 - split` (counted from the LSB) is set, or `e`
when there is none. -/
def findFlip (mc : ℕ → ℕ) (split : ℕ) (b e : ℕ) : ℕ :=
  firstFlipA mc (63 - split) b (e - b)

/-- The bit-flip search loop of lines 215-240, with explicit fuel (the
source asserts `split_idx <= 63` at entry and after each bump, and fuel
64 is never exhausted for such inputs): while the flip position is at
`begin` or at `end`, conclude a leaf if the split index has reached 63,
else bump the split index and search again.  Returns `none` for a leaf,
`some (split, pos)` for an accepted split. -/
def splitSearchA (mc : ℕ → ℕ) (b e : ℕ) : ℕ → ℕ → Option (ℕ × ℕ)
  | 0, _ => none
  | fuel + 1, split =>
    let p := findFlip mc split b e
    if p = b ∨ p = e then
      if 63 ≤ split then none
      else splitSearchA mc b e fuel (split + 1)
    else some (split, p)

/-- The bit-flip search, entered with the node's current split index. -/
def splitSearch (mc : ℕ → ℕ) (b e split : ℕ) : Option (ℕ × ℕ) :=
  splitSearchA mc b e 64 split

/-- The leaf AABB loop of lines 269-277: fold the componentwise min/max
of the sorted per-particle boxes over `cnt` particles starting at `p`,
from the node's current (default) boxes. -/
def leafBoxA (lbs ubs : ℕ → Box4) : ℕ → ℕ → Box4 × Box4 → Box4 × Box4
  | _, 0, acc => acc
  | p, cnt + 1, acc =>
    leafBoxA lbs ubs (p + 1) cnt (minBox acc.1 (lbs p), maxBox acc.2 (ubs p))

/-- Step 1 of the level loop (lines 185-292) for a single node: a node
with more than one particle and split index ≤ 63 searches for a bit
flip — succeeding makes it internal (with its split index possibly
bumped and `nplc = split_pos − begin` particles in the left child),
failing makes it a leaf with split index driven up to 63; any other node
is a leaf.  A leaf gets its AABB computed.  Returns the updated node,
the number of children `nc` (0 or 2) and `nplc`. -/
def classifyNode (mc : ℕ → ℕ) (lbs ubs : ℕ → Box4) (n : bvh_node) : bvh_node × ℕ × ℕ :=
  if 1 < n.nend - n.nbegin ∧ n.split_idx ≤ 63 then
    match splitSearch mc n.nbegin n.nend n.split_idx with
    | some sp => ({n with split_idx := sp.1}, 2, sp.2 - n.nbegin)
    | none =>
      let bb := leafBoxA lbs ubs n.nbegin (n.nend - n.nbegin) (n.lb, n.ub)
      ({n with split_idx := 63, lb := bb.1, ub := bb.2}, 0, 0)
  else
    let bb := leafBoxA lbs ubs n.nbegin (n.nend - n.nbegin) (n.lb, n.ub)
    ({n with lb := bb.1, ub := bb.2}, 0, 0)

/-- Initial setup of a left child (lines 374-385). -/
def mk_left_child (n : bvh_node) (nplc pidx : ℕ) : bvh_node :=
  ⟨n.nbegin, n.nbegin + nplc, (pidx : Int), -1, -1, default_lb, default_ub, 0, n.split_idx + 1⟩

/-- Initial setup of a right child (lines 387-395). -/
def mk_right_child (n : bvh_node) (nplc pidx : ℕ) : bvh_node :=
  ⟨n.nbegin + nplc, n.nend, (pidx : Int), -1, -1, default_lb, default_ub, 0, n.split_idx + 1⟩

/-- Finalisation of a leaf node in step 4 (lines 341-349): only
`nn_level` is set. -/
def finalize_leaf (curN : ℕ) (n : bvh_node) : bvh_node := {n with nn_level := curN}

/-- Finalisation of an internal node in step 4 (lines 350-368): set
`nn_level`, `left = lc_idx` and `right = lc_idx + 1`. -/
def finalize_internal (curN lc_idx : ℕ) (n : bvh_node) : bvh_node :=
  {n with nn_level := curN, left := (lc_idx : Int), right := ((lc_idx + 1 : ℕ) : Int)}

/-- Steps 3 and 4 of the level loop (lines 309-398): walk the classified
level nodes in order, carrying the running inclusive prefix sum `ps` of
the child counts and the running global node index `pidx`; set each
node's `nn_level` to the level size `curN`; an internal node receives
the left-child index `lc_idx = treeSize + ps' − 2` (and right child
`lc_idx + 1`) and its two freshly initialised children are emitted in
order.  Returns the finalised level nodes and the new children. -/
def finalizeLevel (treeSize curN : ℕ) :
    ℕ → ℕ → List (bvh_node × ℕ × ℕ) → List bvh_node × List bvh_node
  | _, _, [] => ([], [])
  | pidx, ps, (n, nc, nplc) :: rest =>
    if nc = 0 then
      let out := finalizeLevel treeSize curN (pidx + 1) ps rest
      (finalize_leaf curN n :: out.1, out.2)
    else
      let ps' := ps + nc
      let out := finalizeLevel treeSize curN (pidx + 1) ps' rest
      (finalize_internal curN (treeSize + ps' - 2) n :: out.1,
        mk_left_child n nplc pidx :: mk_right_child n nplc pidx :: out.2)

/-- One iteration of the level-synchronous while loop (lines 159-409):
classify every node of the current level (the last `curN` nodes of the
tree), count the leaves, finalise the level and append the children.
Returns the new tree and `nn_next_level = 2·curN − 2·L`. -/
def stepLevel (mc : ℕ → ℕ) (lbs ubs : ℕ → Box4) (tree : List bvh_node) (curN : ℕ) :
    List bvh_node × ℕ :=
  let treeSize := tree.length
  let nb := treeSize - curN
  let cl := (tree.drop nb).map (classifyNode mc lbs ubs)
  let nLeaf := (cl.filter (fun t => t.2.1 = 0)).length
  let out := finalizeLevel treeSize curN nb 0 cl
  (tree.take nb ++ out.1 ++ out.2, curN * 2 - nLeaf * 2)

/-- The while loop over tree levels (lines 159-409), with explicit fuel:
`none` models failure to finish within the fuel.  Fuel 66 always
suffices: the root starts at split index 0, every level increases the
minimum split index of the level by at least one, and any node with
split index > 63 (or a single particle) is classified a leaf. -/
def buildLoop (mc : ℕ → ℕ) (lbs ubs : ℕ → Box4) :
    ℕ → List bvh_node → ℕ → Option (List bvh_node)
  | 0, _, _ => none
  | fuel + 1, tree, curN =>
    if curN = 0 then some tree
    else
      let out := stepLevel mc lbs ubs tree curN
      buildLoop mc lbs ubs fuel out.1 out.2

/-- The root node (lines 144-151): `begin = 0`, `end = nparts`,
`parent = left = right = −1`, default boxes, `nn_level = 0`,
`split_idx = 0`. -/
def rootNode (nparts : ℕ) : bvh_node :=
  ⟨0, nparts, -1, -1, -1, default_lb, default_ub, 0, 0⟩

/-- One parallel-for of the backward AABB pass (lines 439-472) over the
node range `[nb, ne)`: an internal node's boxes become the componentwise
min/max of its children's boxes; leaves are left alone.  Children live
in later, already-processed levels, which this update does not touch. -/
def backUpdate (tree : List bvh_node) (nb ne : ℕ) : List bvh_node :=
  (List.range tree.length).map fun i =>
    let n := tree.getD i dummy_node
    if nb ≤ i ∧ i < ne then
      if n.left = -1 then n
      else
        let lc := tree.getD n.left.toNat dummy_node
        let rc := tree.getD n.right.toNat dummy_node
        {n with lb := minBox lc.lb rc.lb, ub := maxBox lc.ub rc.ub}
    else n

/-- The upward walk of the backward pass (lines 438-484), with fuel
(`tree.length` suffices, every reachable node having `nn_level ≥ 1`):
process the current level range, stop at the root, else shift the range
up by the previous level's `nn_level`. -/
def backLoopA : ℕ → List bvh_node → ℕ → ℕ → List bvh_node
  | 0, tree, _, _ => tree
  | fuel + 1, tree, nb, ne =>
    let t := backUpdate tree nb ne
    if nb = 0 then t
    else backLoopA fuel t (nb - (t.getD (nb - 1) dummy_node).nn_level) nb

/-- The backward AABB pass (lines 411-485): starting below the last
level (whose nodes are all leaves with their AABBs already computed),
walk up to the root; when the last level is the whole tree (the root is
itself a leaf) the tree is returned unchanged. -/
def bvh_aabb_backpass (tree : List bvh_node) : List bvh_node :=
  let nb0 := tree.length - (tree.getD (tree.length - 1) dummy_node).nn_level
  if nb0 = 0 then tree
  else backLoopA tree.length tree (nb0 - (tree.getD (nb0 - 1) dummy_node).nn_level) nb0

/-- The BVH construction for one chunk (`construct_bvh_trees_parallel`,
src/sim_bvh.cpp, lines 129-489): seed the root, run the level loop,
then the backward AABB pass. -/
def construct_bvh_tree (nparts : ℕ) (mc : ℕ → ℕ) (lbs ubs : ℕ → Box4) :
    Option (List bvh_node) :=
  (buildLoop mc lbs ubs 66 [rootNode nparts] 1).map bvh_aabb_backpass

/-- Folding `minBox` out of the initial `+∞` box. -/
theorem minBox_default (b : Box4) : minBox default_lb b = b := by
  cases b
  simp [minBox, default_lb, finf]

/-- Folding `maxBox` out of the initial `−∞` box. -/
theorem maxBox_default (b : Box4) : maxBox default_ub b = b := by
  cases b
  simp [maxBox, default_ub, ninf]

/-- C10: empty-input edge case.  With 0 particles the construction still
produces a tree of exactly one node: a root leaf with `begin = end = 0`,
`parent = left = right = −1`, `split_idx = 0`, `nn_level = 1` and the
default `(+∞, −∞)` AABB — in particular `end > begin` fails and the
node's AABB is not finite, so those invariants hold only under `P ≥ 1`. -/
theorem bvh_empty_input (mc : ℕ → ℕ) (lbs ubs : ℕ → Box4) :
    construct_bvh_tree 0 mc lbs ubs
      = some [⟨0, 0, -1, -1, -1, default_lb, default_ub, 1, 0⟩] := rfl

/-- Unfolding the leaf AABB fold over the four particles of the
identical-codes scenario. -/
theorem leafBox4_unfold (lbs ubs : ℕ → Box4) :
    leafBoxA lbs ubs 0 4 (default_lb, default_ub)
      = (minBox (minBox (minBox (lbs 0) (lbs 1)) (lbs 2)) (lbs 3),
          maxBox (maxBox (maxBox (ubs 0) (ubs 1)) (ubs 2)) (ubs 3)) := by
  simp [leafBoxA, minBox_default, maxBox_default]

/-- The level-loop body with its let bindings expanded. -/
theorem stepLevel_eq (mc : ℕ → ℕ) (lbs ubs : ℕ → Box4) (tree : List bvh_node) (curN : ℕ) :
    stepLevel mc lbs ubs tree curN
      = (tree.take (tree.length - curN)
            ++ (finalizeLevel tree.length curN (tree.length - curN) 0
                ((tree.drop (tree.length - curN)).map (classifyNode mc lbs ubs))).1
            ++ (finalizeLevel tree.length curN (tree.length - curN) 0
                ((tree.drop (tree.length - curN)).map (classifyNode mc lbs ubs))).2,
          curN * 2
            - (((tree.drop (tree.length - curN)).map (classifyNode mc lbs ubs)).filter
                (fun t => t.2.1 = 0)).length * 2) := rfl

/-- Unfolding one non-final iteration of the level loop. -/
theorem buildLoop_succ (mc : ℕ → ℕ) (lbs ubs : ℕ → Box4) (fuel : ℕ)
    (tree : List bvh_node) (curN : ℕ) (h : curN ≠ 0) :
    buildLoop mc lbs ubs (fuel + 1) tree curN
      = buildLoop mc lbs ubs fuel (stepLevel mc lbs ubs tree curN).1
          (stepLevel mc lbs ubs tree curN).2 := by
  simp [buildLoop, h]

/-- The level loop stops when the current level is empty. -/
theorem buildLoop_done (mc : ℕ → ℕ) (lbs ubs : ℕ → Box4) (fuel : ℕ)
    (tree : List bvh_node) :
    buildLoop mc lbs ubs (fuel + 1) tree 0 = some tree := by
  simp [buildLoop]

/-- With all four Morton codes equal, the bit-flip scan lands at `begin`
or at `end` for every bit index. -/
theorem findFlip_allEq (mc : ℕ → ℕ) (c : ℕ) (h : ∀ i, i < 4 → mc i = c) (split : ℕ) :
    findFlip mc split 0 4 = 0 ∨ findFlip mc split 0 4 = 4 := by
  unfold findFlip
  by_cases hb : c.testBit (63 - split)
  · left
    simp [firstFlipA, h 0 (by omega), hb]
  · right
    simp [firstFlipA, h 0 (by omega), h 1 (by omega), h 2 (by omega), h 3 (by omega), hb]

/-- With all four Morton codes equal, the bit-flip search never accepts a
split: the node is a leaf. -/
theorem splitSearchA_allEq (mc : ℕ → ℕ) (c : ℕ) (h : ∀ i, i < 4 → mc i = c) :
    ∀ fuel split, splitSearchA mc 0 4 fuel split = none := by
  intro fuel
  induction fuel with
  | zero => intro split; rfl
  | succ fuel ih =>
    intro split
    have hbody : splitSearchA mc 0 4 (fuel + 1) split
        = if findFlip mc split 0 4 = 0 ∨ findFlip mc split 0 4 = 4 then
            (if 63 ≤ split then none else splitSearchA mc 0 4 fuel (split + 1))
          else some (split, findFlip mc split 0 4) := rfl
    rw [hbody, if_pos (findFlip_allEq mc c h split)]
    rcases le_or_lt 63 split with hs | hs
    · rw [if_pos hs]
    · rw [if_neg (by omega)]
      exact ih (split + 1)

/-- C7 (amended): identical-codes scenario.  For a chunk with 4 particles
whose Morton codes are all equal, the constructed tree is a single node:
the root, a leaf with `begin = 0`, `end = 4`, `split_idx = 63` (the bump
loop stops at bit index 63 and concludes a leaf, leaving `split_idx` at
63, not 64), no children, and lb/ub the coordinate-wise min/max of the
four input AABBs. -/
theorem bvh_identical_codes_amended (mc : ℕ → ℕ) (c : ℕ) (lbs ubs : ℕ → Box4)
    (h : ∀ i, i < 4 → mc i = c) :
    construct_bvh_tree 4 mc lbs ubs
      = some [⟨0, 4, -1, -1, -1, minBox (minBox (minBox (lbs 0) (lbs 1)) (lbs 2)) (lbs 3),
          maxBox (maxBox (maxBox (ubs 0) (ubs 1)) (ubs 2)) (ubs 3), 1, 63⟩] := by
  have hcl : classifyNode mc lbs ubs (rootNode 4)
      = (⟨0, 4, -1, -1, -1, minBox (minBox (minBox (lbs 0) (lbs 1)) (lbs 2)) (lbs 3),
          maxBox (maxBox (maxBox (ubs 0) (ubs 1)) (ubs 2)) (ubs 3), 0, 63⟩, 0, 0) := by
    rw [classifyNode]
    rw [if_pos (by norm_num [rootNode])]
    rw [show splitSearch mc (rootNode 4).nbegin (rootNode 4).nend (rootNode 4).split_idx
        = none from splitSearchA_allEq mc c h 64 0]
    simp [rootNode, leafBox4_unfold lbs ubs]
  have hmap : (List.drop ([rootNode 4].length - 1) [rootNode 4]).map (classifyNode mc lbs ubs)
      = [(⟨0, 4, -1, -1, -1, minBox (minBox (minBox (lbs 0) (lbs 1)) (lbs 2)) (lbs 3),
          maxBox (maxBox (maxBox (ubs 0) (ubs 1)) (ubs 2)) (ubs 3), 0, 63⟩, 0, 0)] := by
    rw [show [rootNode 4].length - 1 = 0 from rfl, List.drop_zero, List.map_cons, List.map_nil,
      hcl]
  have hstep : stepLevel mc lbs ubs [rootNode 4] 1
      = ([⟨0, 4, -1, -1, -1, minBox (minBox (minBox (lbs 0) (lbs 1)) (lbs 2)) (lbs 3),
          maxBox (maxBox (maxBox (ubs 0) (ubs 1)) (ubs 2)) (ubs 3), 1, 63⟩], 0) := by
    rw [stepLevel_eq, hmap]
    simp [finalizeLevel, finalize_leaf]
  rw [construct_bvh_tree, show (66 : ℕ) = 65 + 1 from rfl,
    buildLoop_succ mc lbs ubs 65 [rootNode 4] 1 (by norm_num), hstep,
    show (65 : ℕ) = 64 + 1 from rfl, buildLoop_done]
  simp [bvh_aabb_backpass, List.getD]

/-- The constant per-particle lower-bound boxes used in the concrete BVH
scenarios. -/
def boxW : Box4 := ⟨fv 0, fv 0, fv 0, fv 0⟩

/-- The constant per-particle upper-bound boxes used in the concrete BVH
scenarios. -/
def boxW2 : Box4 := ⟨fv 1, fv 2, fv 3, fv 4⟩

theorem bvh_identical_codes_amended_witness :
    construct_bvh_tree 4 (fun _ => 5) (fun _ => boxW) (fun _ => boxW2)
      = some [⟨0, 4, -1, -1, -1,
          minBox (minBox (minBox (boxW) (boxW)) (boxW)) (boxW),
          maxBox (maxBox (maxBox (boxW2) (boxW2)) (boxW2)) (boxW2), 1, 63⟩] :=
  bvh_identical_codes_amended (fun _ => 5) 5 (fun _ => boxW) (fun _ => boxW2)
    (fun i _ => rfl)

/-- C7 (counterexample): in the identical-codes scenario the root leaf's
`split_idx` is 63, not 64 as the claim states: with 4 particles of equal
Morton code 5 the constructed tree's single node carries `split_idx = 63`. -/
theorem bvh_identical_codes_split_cex :
    ((construct_bvh_tree 4 (fun _ => 5) (fun _ => boxW) (fun _ => boxW2)).getD []).length = 1 ∧
      (((construct_bvh_tree 4 (fun _ => 5) (fun _ => boxW) (fun _ => boxW2)).getD []).getD 0
          dummy_node).split_idx = 63 ∧
      ¬ (((construct_bvh_tree 4 (fun _ => 5) (fun _ => boxW) (fun _ => boxW2)).getD []).getD 0
          dummy_node).split_idx = 64 := by
  refine ⟨by decide, by decide, by decide⟩

/-- The bit scan stays within the scanned range. -/
theorem firstFlipA_bounds (mc : ℕ → ℕ) (pos : ℕ) :
    ∀ (cnt b : ℕ), b ≤ firstFlipA mc pos b cnt ∧ firstFlipA mc pos b cnt ≤ b + cnt := by
  intro cnt
  induction cnt with
  | zero => intro b; simp [firstFlipA]
  | succ cnt ih =>
    intro b
    rw [firstFlipA]
    by_cases hb : (mc b).testBit pos
    · rw [if_pos hb]; omega
    · rw [if_neg hb]
      have h := ih (b + 1)
      omega

/-- An accepted split lies between the entry split index and 63, and its
flip position lies strictly inside the node's range. -/
theorem splitSearchA_some_facts (mc : ℕ → ℕ) (b e : ℕ) :
    ∀ fuel split s p, split ≤ 63 → splitSearchA mc b e fuel split = some (s, p) →
      split ≤ s ∧ s ≤ 63 ∧ (b ≤ e → b < p ∧ p < e) := by
  intro fuel
  induction fuel with
  | zero =>
    intro split s p _ h
    exact absurd h (by simp [splitSearchA])
  | succ fuel ih =>
    intro split s p h63 h
    have hbody : splitSearchA mc b e (fuel + 1) split
        = if findFlip mc split b e = b ∨ findFlip mc split b e = e then
            (if 63 ≤ split then none else splitSearchA mc b e fuel (split + 1))
          else some (split, findFlip mc split b e) := rfl
    rw [hbody] at h
    by_cases hp : findFlip mc split b e = b ∨ findFlip mc split b e = e
    · rw [if_pos hp] at h
      by_cases hs : 63 ≤ split
      · rw [if_pos hs] at h
        exact absurd h (by simp)
      · rw [if_neg hs] at h
        have hfacts := ih (split + 1) s p (by omega) h
        exact ⟨by omega, hfacts.2.1, hfacts.2.2⟩
    · rw [if_neg hp] at h
      have hpair : (split, findFlip mc split b e) = (s, p) := Option.some.inj h
      have h1 : split = s := congrArg Prod.fst hpair
      have h2 : findFlip mc split b e = p := congrArg Prod.snd hpair
      push_neg at hp
      refine ⟨by omega, by omega, ?_⟩
      intro hbe
      have hb2 := firstFlipA_bounds mc (63 - split) (e - b) b
      rw [findFlip] at h2 hp
      omega

/-- A node classified internal: the guard held, the split index only
moved up (staying ≤ 63), the structural fields are unchanged, and the
left child's particle count is strictly between 0 and the node's size. -/
theorem classifyNode_internal_facts (mc : ℕ → ℕ) (lbs ubs : ℕ → Box4) (n n' : bvh_node)
    (nplc : ℕ) (hcl : classifyNode mc lbs ubs n = (n', 2, nplc)) :
    1 < n.nend - n.nbegin ∧ n.split_idx ≤ 63 ∧ n.split_idx ≤ n'.split_idx ∧
      n'.split_idx ≤ 63 ∧ n'.nbegin = n.nbegin ∧ n'.nend = n.nend ∧ n'.parent = n.parent ∧
      n'.left = n.left ∧ n'.right = n.right ∧ n'.nn_level = n.nn_level ∧
      0 < nplc ∧ n.nbegin + nplc < n.nend := by
  unfold classifyNode at hcl
  by_cases hg : 1 < n.nend - n.nbegin ∧ n.split_idx ≤ 63
  · rw [if_pos hg] at hcl
    rcases hsp : splitSearch mc n.nbegin n.nend n.split_idx with _ | ⟨s, p⟩
    · rw [hsp] at hcl
      have hfalse := congrArg (fun t => t.2.1) hcl
      simp at hfalse
    · rw [hsp] at hcl
      have hn' : ({n with split_idx := s} : bvh_node) = n' := congrArg (fun t => t.1) hcl
      have hnplc : p - n.nbegin = nplc := congrArg (fun t => t.2.2) hcl
      have hfacts := splitSearchA_some_facts mc n.nbegin n.nend 64 n.split_idx s p hg.2 hsp
      have hrange := hfacts.2.2 (by omega)
      subst hn'
      refine ⟨hg.1, hg.2, hfacts.1, hfacts.2.1, rfl, rfl, rfl, rfl, rfl, rfl, by omega, by omega⟩
  · rw [if_neg hg] at hcl
    have hfalse := congrArg (fun t => t.2.1) hcl
    simp at hfalse

/-- A node classified a leaf: the structural fields are unchanged and the
split index is either unchanged or driven to 63. -/
theorem classifyNode_leaf_facts (mc : ℕ → ℕ) (lbs ubs : ℕ → Box4) (n n' : bvh_node)
    (nplc : ℕ) (hcl : classifyNode mc lbs ubs n = (n', 0, nplc)) :
    n'.nbegin = n.nbegin ∧ n'.nend = n.nend ∧ n'.parent = n.parent ∧ n'.left = n.left ∧
      n'.right = n.right ∧ n'.nn_level = n.nn_level ∧
      (n'.split_idx = n.split_idx ∨ n'.split_idx = 63) := by
  unfold classifyNode at hcl
  by_cases hg : 1 < n.nend - n.nbegin ∧ n.split_idx ≤ 63
  · rw [if_pos hg] at hcl
    rcases hsp : splitSearch mc n.nbegin n.nend n.split_idx with _ | ⟨s, p⟩
    · rw [hsp] at hcl
      have hn' := congrArg (fun t => t.1) hcl
      subst hn'
      exact ⟨rfl, rfl, rfl, rfl, rfl, rfl, Or.inr rfl⟩
    · rw [hsp] at hcl
      have hfalse := congrArg (fun t => t.2.1) hcl
      simp at hfalse
  · rw [if_neg hg] at hcl
    have hn' := congrArg (fun t => t.1) hcl
    subst hn'
    exact ⟨rfl, rfl, rfl, rfl, rfl, rfl, Or.inl rfl⟩

/-- Every classification yields 0 or 2 children. -/
theorem classifyNode_nc (mc : ℕ → ℕ) (lbs ubs : ℕ → Box4) (n : bvh_node) :
    (classifyNode mc lbs ubs n).2.1 = 0 ∨ (classifyNode mc lbs ubs n).2.1 = 2 := by
  unfold classifyNode
  by_cases hg : 1 < n.nend - n.nbegin ∧ n.split_idx ≤ 63
  · rw [if_pos hg]
    rcases splitSearch mc n.nbegin n.nend n.split_idx with _ | sp
    · simp
    · simp
  · rw [if_neg hg]
    simp

/-- The finalised level has as many nodes as the classified level. -/
theorem finalizeLevel_fst_length (T C : ℕ) :
    ∀ (xs : List (bvh_node × ℕ × ℕ)) (pidx ps : ℕ),
      (finalizeLevel T C pidx ps xs).1.length = xs.length := by
  intro xs
  induction xs with
  | nil => intro pidx ps; rfl
  | cons x rest ih =>
    intro pidx ps
    obtain ⟨n, nc, nplc⟩ := x
    by_cases h : nc = 0
    · simp [finalizeLevel, h, ih]
    · simp [finalizeLevel, h, ih]

/-- The children count: two per internal node. -/
theorem finalizeLevel_snd_length (T C : ℕ) :
    ∀ (xs : List (bvh_node × ℕ × ℕ)) (pidx ps : ℕ),
      (finalizeLevel T C pidx ps xs).2.length
          + 2 * (xs.filter (fun t => t.2.1 = 0)).length = 2 * xs.length := by
  intro xs
  induction xs with
  | nil => intro pidx ps; rfl
  | cons x rest ih =>
    intro pidx ps
    obtain ⟨n, nc, nplc⟩ := x
    by_cases h : nc = 0
    · have hr := ih (pidx + 1) ps
      simp only [finalizeLevel, h, if_pos rfl, List.filter_cons, decide_eq_true_eq]
      simp [h]
      omega
    · have hr := ih (pidx + 1) (ps + nc)
      simp only [finalizeLevel, h, if_neg h, List.filter_cons, decide_eq_true_eq]
      simp [h]
      omega

/-- Every emitted child is the left or right child of some internal entry
of the classified level. -/
theorem finalizeLevel_snd_mem (T C : ℕ) :
    ∀ (xs : List (bvh_node × ℕ × ℕ)) (pidx ps : ℕ) (c : bvh_node),
      c ∈ (finalizeLevel T C pidx ps xs).2 →
      ∃ x ∈ xs, x.2.1 ≠ 0 ∧
        ∃ q, c = mk_left_child x.1 x.2.2 q ∨ c = mk_right_child x.1 x.2.2 q := by
  intro xs
  induction xs with
  | nil =>
    intro pidx ps c hc
    exact absurd hc (by simp [finalizeLevel])
  | cons x rest ih =>
    intro pidx ps c hc
    obtain ⟨n, nc, nplc⟩ := x
    by_cases h : nc = 0
    · simp only [finalizeLevel, h, if_pos rfl] at hc
      obtain ⟨x', hx', hrest⟩ := ih (pidx + 1) ps c hc
      exact ⟨x', List.mem_cons_of_mem _ hx', hrest⟩
    · simp [finalizeLevel, h] at hc
      rcases hc with hc | hc | hc
      · exact ⟨(n, nc, nplc), List.mem_cons_self _ _, h, pidx, Or.inl hc⟩
      · exact ⟨(n, nc, nplc), List.mem_cons_self _ _, h, pidx, Or.inr hc⟩
      · obtain ⟨x', hx', hrest⟩ := ih (pidx + 1) (ps + nc) c hc
        exact ⟨x', List.mem_cons_of_mem _ hx', hrest⟩

/-- Shape of one level iteration: the tree grows by exactly the next
level's node count, and the new level is exactly the children list of
the finalisation. -/
theorem stepLevel_shape (mc : ℕ → ℕ) (lbs ubs : ℕ → Box4) (tree : List bvh_node) (curN : ℕ)
    (hlen : curN ≤ tree.length) :
    (stepLevel mc lbs ubs tree curN).1.length = tree.length + (stepLevel mc lbs ubs tree curN).2 ∧
      (stepLevel mc lbs ubs tree curN).1.drop tree.length
        = (finalizeLevel tree.length curN (tree.length - curN) 0
            ((tree.drop (tree.length - curN)).map (classifyNode mc lbs ubs))).2 ∧
      (stepLevel mc lbs ubs tree curN).2
        = (finalizeLevel tree.length curN (tree.length - curN) 0
            ((tree.drop (tree.length - curN)).map (classifyNode mc lbs ubs))).2.length := by
  have hlev : (tree.drop (tree.length - curN)).length = curN := by
    rw [List.length_drop]
    omega
  have hcl : ((tree.drop (tree.length - curN)).map (classifyNode mc lbs ubs)).length = curN := by
    rw [List.length_map, hlev]
  have hfin : (finalizeLevel tree.length curN (tree.length - curN) 0
      ((tree.drop (tree.length - curN)).map (classifyNode mc lbs ubs))).1.length = curN := by
    rw [finalizeLevel_fst_length, hcl]
  have hsnd := finalizeLevel_snd_length tree.length curN
    ((tree.drop (tree.length - curN)).map (classifyNode mc lbs ubs)) (tree.length - curN) 0
  have hfil : ((((tree.drop (tree.length - curN)).map (classifyNode mc lbs ubs)).filter
      (fun t => t.2.1 = 0)).length) ≤ curN := by
    calc ((((tree.drop (tree.length - curN)).map (classifyNode mc lbs ubs)).filter
        (fun t => t.2.1 = 0)).length)
        ≤ ((tree.drop (tree.length - curN)).map (classifyNode mc lbs ubs)).length :=
          List.length_filter_le _ _
      _ = curN := hcl
  have htake : (tree.take (tree.length - curN)).length = tree.length - curN := by
    rw [List.length_take]
    omega
  rw [hcl] at hsnd
  refine ⟨?_, ?_, ?_⟩
  · rw [stepLevel_eq]
    simp only [List.length_append, htake, hfin]
    omega
  · rw [stepLevel_eq]
    have hpre : ((tree.take (tree.length - curN))
        ++ (finalizeLevel tree.length curN (tree.length - curN) 0
            ((tree.drop (tree.length - curN)).map (classifyNode mc lbs ubs))).1).length
        = tree.length := by
      rw [List.length_append, htake, hfin]
      omega
    dsimp only
    have hd := List.drop_left
      (tree.take (tree.length - curN)
        ++ (finalizeLevel tree.length curN (tree.length - curN) 0
            ((tree.drop (tree.length - curN)).map (classifyNode mc lbs ubs))).1)
      ((finalizeLevel tree.length curN (tree.length - curN) 0
            ((tree.drop (tree.length - curN)).map (classifyNode mc lbs ubs))).2)
    rw [hpre] at hd
    exact hd
  · rw [stepLevel_eq]
    omega

/-- C9 helper: fuel sufficiency of the level loop.  If every node of the
current level has split index at most 64 and at least `66 − fuel`, the
loop reaches an empty level within the fuel. -/
theorem buildLoop_terminates (mc : ℕ → ℕ) (lbs ubs : ℕ → Box4) :
    ∀ (fuel : ℕ) (tree : List bvh_node) (curN : ℕ),
      1 ≤ fuel → curN ≤ tree.length →
      (∀ n ∈ tree.drop (tree.length - curN), n.split_idx ≤ 64 ∧ 66 ≤ fuel + n.split_idx) →
      (buildLoop mc lbs ubs fuel tree curN).isSome := by
  intro fuel
  induction fuel with
  | zero =>
    intro tree curN h1
    exact absurd h1 (by omega)
  | succ fuel ih =>
    intro tree curN _ hlen hlev
    by_cases hc0 : curN = 0
    · subst hc0
      simp [buildLoop]
    · rw [buildLoop_succ mc lbs ubs fuel tree curN hc0]
      have hshape := stepLevel_shape mc lbs ubs tree curN hlen
      have hlevne : tree.drop (tree.length - curN) ≠ [] := by
        intro habs
        have := congrArg List.length habs
        rw [List.length_drop] at this
        simp at this
        omega
      obtain ⟨n0, hn0⟩ := List.exists_mem_of_ne_nil _ hlevne
      have hfuel1 : 1 ≤ fuel := by
        have h0 := hlev n0 hn0
        omega
      refine ih (stepLevel mc lbs ubs tree curN).1 (stepLevel mc lbs ubs tree curN).2 hfuel1
        (by omega) ?_
      intro c hc
      have hdropc : (stepLevel mc lbs ubs tree curN).1.length
          - (stepLevel mc lbs ubs tree curN).2 = tree.length := by omega
      rw [hdropc, hshape.2.1] at hc
      obtain ⟨x, hx, hxnc, q, hq⟩ := finalizeLevel_snd_mem tree.length curN _ _ _ c hc
      obtain ⟨orig, horig, horig2⟩ := List.mem_map.mp hx
      have hnc2 : x.2.1 = 2 := by
        have := classifyNode_nc mc lbs ubs orig
        rw [horig2] at this
        rcases this with h2 | h2
        · exact absurd h2 hxnc
        · exact h2
      have hclx : classifyNode mc lbs ubs orig = (x.1, 2, x.2.2) := by
        rw [horig2]
        exact congrArg (fun v => (x.1, v, x.2.2)) hnc2 ▸ rfl
      have hf := classifyNode_internal_facts mc lbs ubs orig x.1 x.2.2 (by
        rw [horig2, ← hnc2])
      have horigbd := hlev orig horig
      have hcsplit : c.split_idx = x.1.split_idx + 1 := by
        rcases hq with hq | hq
        · rw [hq]
          rfl
        · rw [hq]
          rfl
      constructor
      · omega
      · omega

/-- C9: termination of the BVH builder.  For every particle count and
every input data, the level-by-level construction loop terminates within
the 66 units of fuel: the root starts at split index 0, every child's
split index is its parent's (final) split index plus one, and any
multi-particle node whose split index exceeds 63 is classified a leaf,
so the number of levels is bounded and the level size reaches zero. -/
theorem bvh_termination (nparts : ℕ) (mc : ℕ → ℕ) (lbs ubs : ℕ → Box4) :
    (construct_bvh_tree nparts mc lbs ubs).isSome := by
  have hb : (buildLoop mc lbs ubs 66 [rootNode nparts] 1).isSome := by
    refine buildLoop_terminates mc lbs ubs 66 [rootNode nparts] 1 (by omega) (by simp) ?_
    intro n hn
    simp at hn
    rw [hn]
    exact ⟨by norm_num [rootNode], by norm_num [rootNode]⟩
  rw [construct_bvh_tree]
  rcases hs : buildLoop mc lbs ubs 66 [rootNode nparts] 1 with _ | t
  · rw [hs] at hb
    simp at hb
  · simp

/-- Reading inside the taken part of a list. -/
theorem getD_take_lt {α : Type} :
    ∀ (t : List α) (d : α) (n i : ℕ), i < n → (t.take n).getD i d = t.getD i d := by
  intro t
  induction t with
  | nil => intro d n i h; simp
  | cons x xs ih =>
    intro d n i h
    cases n with
    | zero => omega
    | succ m =>
      cases i with
      | zero => simp
      | succ j =>
        simp only [List.take_succ_cons, List.getD_cons_succ]
        exact ih d m j (by omega)

/-- Reading inside a dropped list. -/
theorem getD_drop_add {α : Type} :
    ∀ (t : List α) (d : α) (n k : ℕ), (t.drop n).getD k d = t.getD (n + k) d := by
  intro t
  induction t with
  | nil => intro d n k; simp
  | cons x xs ih =>
    intro d n k
    cases n with
    | zero => simp
    | succ m =>
      simp only [List.drop_succ_cons]
      rw [ih d m k, show m + 1 + k = (m + k) + 1 by omega, List.getD_cons_succ]

/-- Reading a mapped list at a valid index. -/
theorem getD_map_lt {α β : Type} (f : α → β) (dA : α) (dB : β) :
    ∀ (l : List α) (j : ℕ), j < l.length → (l.map f).getD j dB = f (l.getD j dA) := by
  intro l
  induction l with
  | nil => intro j hj; simp at hj
  | cons x xs ih =>
    intro j hj
    cases j with
    | zero => simp
    | succ j' =>
      simp only [List.map_cons, List.getD_cons_succ]
      exact ih j' (by simpa using hj)

/-- The default entry for reading a classified level. -/
def dummy_cl : bvh_node × ℕ × ℕ := (dummy_node, 0, 0)

/-- Per-index characterisation of the level finalisation, over classified
levels whose child counts are all 0 or 2: a leaf entry is finalised in
place; an internal entry `j` gets children indices `T + ps + k` and
`T + ps + k + 1` where `k` is its children's position in the emitted
children list, and those children are its freshly initialised left and
right child with parent index `pidx + j`. -/
theorem finalizeLevel_spec (T C : ℕ) :
    ∀ (xs : List (bvh_node × ℕ × ℕ)) (pidx ps : ℕ),
      (∀ x ∈ xs, x.2.1 = 0 ∨ x.2.1 = 2) →
      ∀ j, j < xs.length →
        ((xs.getD j dummy_cl).2.1 = 0 →
          (finalizeLevel T C pidx ps xs).1.getD j dummy_node
            = finalize_leaf C (xs.getD j dummy_cl).1) ∧
        ((xs.getD j dummy_cl).2.1 = 2 →
          ∃ k, k + 2 ≤ (finalizeLevel T C pidx ps xs).2.length ∧
            (finalizeLevel T C pidx ps xs).1.getD j dummy_node
              = finalize_internal C (T + ps + k) (xs.getD j dummy_cl).1 ∧
            (finalizeLevel T C pidx ps xs).2.getD k dummy_node
              = mk_left_child (xs.getD j dummy_cl).1 (xs.getD j dummy_cl).2.2 (pidx + j) ∧
            (finalizeLevel T C pidx ps xs).2.getD (k + 1) dummy_node
              = mk_right_child (xs.getD j dummy_cl).1 (xs.getD j dummy_cl).2.2 (pidx + j)) := by
  intro xs
  induction xs with
  | nil =>
    intro pidx ps _ j hj
    simp at hj
  | cons x rest ih =>
    intro pidx ps hnc j hj
    obtain ⟨n, nc, nplc⟩ := x
    rcases hnc (n, nc, nplc) (List.mem_cons_self _ _) with hnc0 | hnc2
    · simp only at hnc0
      subst hnc0
      have hunf : finalizeLevel T C pidx ps ((n, 0, nplc) :: rest)
          = (finalize_leaf C n :: (finalizeLevel T C (pidx + 1) ps rest).1,
              (finalizeLevel T C (pidx + 1) ps rest).2) := rfl
      rw [hunf]
      cases j with
      | zero =>
        constructor
        · intro _
          simp
        · intro habs
          simp at habs
      | succ j' =>
        have hrec := ih (pidx + 1) ps (fun y hy => hnc y (List.mem_cons_of_mem _ hy)) j'
          (by simpa using hj)
        simp only [List.getD_cons_succ]
        constructor
        · intro h0
          exact hrec.1 h0
        · intro h2
          obtain ⟨k, hk1, hk2, hk3, hk4⟩ := hrec.2 h2
          refine ⟨k, hk1, hk2, ?_, ?_⟩
          · rw [hk3]
            congr 1 <;> omega
          · rw [hk4]
            congr 1 <;> omega
    · simp only at hnc2
      subst hnc2
      have hunf : finalizeLevel T C pidx ps ((n, 2, nplc) :: rest)
          = (finalize_internal C (T + (ps + 2) - 2) n
                :: (finalizeLevel T C (pidx + 1) (ps + 2) rest).1,
              mk_left_child n nplc pidx :: mk_right_child n nplc pidx
                :: (finalizeLevel T C (pidx + 1) (ps + 2) rest).2) := rfl
      rw [hunf]
      cases j with
      | zero =>
        constructor
        · intro habs
          simp at habs
        · intro _
          refine ⟨0, ?_, ?_, ?_, ?_⟩
          · simp only [List.length_cons]
            omega
          · simp only [List.getD_cons_zero]
            congr 1 <;> omega
          · simp
          · simp
      | succ j' =>
        have hrec := ih (pidx + 1) (ps + 2) (fun y hy => hnc y (List.mem_cons_of_mem _ hy)) j'
          (by simpa using hj)
        simp only [List.getD_cons_succ]
        constructor
        · intro h0
          exact hrec.1 h0
        · intro h2
          obtain ⟨k, hk1, hk2, hk3, hk4⟩ := hrec.2 h2
          refine ⟨k + 2, ?_, ?_, ?_, ?_⟩
          · simp only [List.length_cons]
            omega
          · rw [hk2]
            congr 1 <;> omega
          · simp only [List.getD_cons_succ]
            rw [hk3]
            congr 1 <;> omega
          · simp only [List.getD_cons_succ]
            rw [hk4]
            congr 1 <;> omega

/-- Reading a list at a valid index yields a member. -/
theorem getD_mem_of_lt {α : Type} (l : List α) (d : α) (k : ℕ) (h : k < l.length) :
    l.getD k d ∈ l := by
  rw [List.getD_eq_getElem l d h]
  exact List.getElem_mem h

/-- The range relations of C4 for the node at index `i`: when it has
children, its `left`/`right` are consecutive valid indices after `i`,
the left child starts where the node starts, the right child ends where
the node ends, the children's ranges abut, and the left child ends
strictly before the node's end. -/
def internal_ok (t : List bvh_node) (i : ℕ) : Prop :=
  (t.getD i dummy_node).left ≠ -1 →
    ∃ l : ℕ, (t.getD i dummy_node).left = (l : Int) ∧
      (t.getD i dummy_node).right = ((l + 1 : ℕ) : Int) ∧
      i < l ∧ l + 1 < t.length ∧
      (t.getD l dummy_node).nbegin = (t.getD i dummy_node).nbegin ∧
      (t.getD (l + 1) dummy_node).nbegin = (t.getD l dummy_node).nend ∧
      (t.getD (l + 1) dummy_node).nend = (t.getD i dummy_node).nend ∧
      (t.getD l dummy_node).nend < (t.getD i dummy_node).nend

/-- The invariant carried through the level loop: the current level fits
in the tree, every node's range is nonempty, every node before the
current level satisfies the range relations, and the current level's
nodes are fresh (no children assigned yet). -/
def loop_inv (t : List bvh_node) (curN : ℕ) : Prop :=
  curN ≤ t.length ∧
    (∀ i, i < t.length → (t.getD i dummy_node).nbegin < (t.getD i dummy_node).nend) ∧
    (∀ i, i < t.length - curN → internal_ok t i) ∧
    (∀ i, t.length - curN ≤ i → i < t.length →
      (t.getD i dummy_node).left = -1 ∧ (t.getD i dummy_node).right = -1)


/-- One level iteration preserves the loop invariant. -/
theorem loop_inv_step (mc : ℕ → ℕ) (lbs ubs : ℕ → Box4) (tree : List bvh_node) (curN : ℕ)
    (hinv : loop_inv tree curN) (hc0 : curN ≠ 0) :
    loop_inv (stepLevel mc lbs ubs tree curN).1 (stepLevel mc lbs ubs tree curN).2 := by
  obtain ⟨hlen, hbe, hint, hfresh⟩ := hinv
  have hfst : (stepLevel mc lbs ubs tree curN).1
      = tree.take (tree.length - curN)
        ++ (finalizeLevel tree.length curN (tree.length - curN) 0
            ((tree.drop (tree.length - curN)).map (classifyNode mc lbs ubs))).1
        ++ (finalizeLevel tree.length curN (tree.length - curN) 0
            ((tree.drop (tree.length - curN)).map (classifyNode mc lbs ubs))).2 := rfl
  have hsnd : (stepLevel mc lbs ubs tree curN).2
      = curN * 2 - (((tree.drop (tree.length - curN)).map (classifyNode mc lbs ubs)).filter
          (fun t => t.2.1 = 0)).length * 2 := rfl
  rw [hfst, hsnd]
  set T := tree.length with hT
  set nb := T - curN with hnb
  set cl := (tree.drop nb).map (classifyNode mc lbs ubs) with hcldef
  set fin := (finalizeLevel T curN nb 0 cl).1 with hfindef
  set cs := (finalizeLevel T curN nb 0 cl).2 with hcsdef
  have hclnc : ∀ x ∈ cl, x.2.1 = 0 ∨ x.2.1 = 2 := by
    intro x hx
    rw [hcldef] at hx
    obtain ⟨orig, _, horig⟩ := List.mem_map.mp hx
    rw [← horig]
    exact classifyNode_nc mc lbs ubs orig
  have hlevlen : (tree.drop nb).length = curN := by
    rw [List.length_drop, hnb]
    omega
  have hcllen : cl.length = curN := by
    rw [hcldef, List.length_map, hlevlen]
  have hfinlen : fin.length = curN := by
    rw [hfindef, finalizeLevel_fst_length, hcllen]
  have htakelen : (tree.take nb).length = nb := by
    rw [List.length_take]
    omega
  have hsndlen := finalizeLevel_snd_length T curN cl nb 0
  have hfltle : (cl.filter (fun t => t.2.1 = 0)).length ≤ cl.length :=
    List.length_filter_le _ _
  have hsnd2 : curN * 2 - (cl.filter (fun t => t.2.1 = 0)).length * 2 = cs.length := by
    rw [hcllen] at hsndlen hfltle
    rw [← hcsdef] at hsndlen
    omega
  rw [hsnd2]
  have hclget : ∀ j, j < curN →
      cl.getD j dummy_cl = classifyNode mc lbs ubs (tree.getD (nb + j) dummy_node) := by
    intro j hj
    rw [hcldef, getD_map_lt (classifyNode mc lbs ubs) dummy_node dummy_cl _ j
      (by rw [hlevlen]; exact hj), getD_drop_add]
  have hcls0 : ∀ j, j < curN → (cl.getD j dummy_cl).2.1 = 0 →
      classifyNode mc lbs ubs (tree.getD (nb + j) dummy_node)
        = ((cl.getD j dummy_cl).1, 0, (cl.getD j dummy_cl).2.2) := by
    intro j hj h0
    rw [← h0]
    exact (hclget j hj).symm
  have hcls2 : ∀ j, j < curN → (cl.getD j dummy_cl).2.1 = 2 →
      classifyNode mc lbs ubs (tree.getD (nb + j) dummy_node)
        = ((cl.getD j dummy_cl).1, 2, (cl.getD j dummy_cl).2.2) := by
    intro j hj h2
    rw [← h2]
    exact (hclget j hj).symm
  have hR1 : ∀ i, i < nb →
      ((tree.take nb ++ fin ++ cs).getD i dummy_node) = tree.getD i dummy_node := by
    intro i hi
    rw [List.getD_append _ _ _ _ (by rw [List.length_append, htakelen, hfinlen]; omega),
      List.getD_append _ _ _ _ (by rw [htakelen]; omega), getD_take_lt _ _ _ _ hi]
  have hR2 : ∀ j, j < curN →
      ((tree.take nb ++ fin ++ cs).getD (nb + j) dummy_node) = fin.getD j dummy_node := by
    intro j hj
    rw [List.getD_append _ _ _ _ (by rw [List.length_append, htakelen, hfinlen]; omega),
      List.getD_append_right _ _ _ _ (by rw [htakelen]; omega), htakelen]
    congr 1
    omega
  have hR3 : ∀ k,
      ((tree.take nb ++ fin ++ cs).getD (T + k) dummy_node) = cs.getD k dummy_node := by
    intro k
    rw [List.getD_append_right _ _ _ _
      (by rw [List.length_append, htakelen, hfinlen]; omega)]
    congr 1
    rw [List.length_append, htakelen, hfinlen]
    omega
  have hlen' : (tree.take nb ++ fin ++ cs).length = T + cs.length := by
    rw [List.length_append, List.length_append, htakelen, hfinlen]
    omega
  have hspec := finalizeLevel_spec T curN cl nb 0 hclnc
  have hfreshlev : ∀ j, j < curN →
      (tree.getD (nb + j) dummy_node).left = -1
        ∧ (tree.getD (nb + j) dummy_node).right = -1 := by
    intro j hj
    exact hfresh (nb + j) (by omega) (by omega)
  have hcsfacts : ∀ c ∈ cs, c.left = -1 ∧ c.right = -1 ∧ c.nbegin < c.nend := by
    intro c hc
    obtain ⟨x, hx, hxnc, q, hq⟩ := finalizeLevel_snd_mem T curN cl nb 0 c hc
    obtain ⟨orig, _, horig⟩ := List.mem_map.mp (hcldef ▸ hx)
    have hx2 : x.2.1 = 2 := by
      rcases hclnc x hx with h0 | h2
      · exact absurd h0 hxnc
      · exact h2
    have hcls : classifyNode mc lbs ubs orig = (x.1, 2, x.2.2) := by
      rw [← hx2]
      exact horig
    have hf := classifyNode_internal_facts mc lbs ubs orig x.1 x.2.2 hcls
    rcases hq with hq | hq
    · subst hq
      refine ⟨rfl, rfl, ?_⟩
      simp only [mk_left_child]
      omega
    · subst hq
      refine ⟨rfl, rfl, ?_⟩
      simp only [mk_right_child]
      have h1 : x.1.nbegin = orig.nbegin := hf.2.2.2.2.1
      have h2 : x.1.nend = orig.nend := hf.2.2.2.2.2.1
      simp only [h1, h2]
      omega
  have hpres : ∀ l, l < T →
      ((tree.take nb ++ fin ++ cs).getD l dummy_node).nbegin
          = (tree.getD l dummy_node).nbegin ∧
        ((tree.take nb ++ fin ++ cs).getD l dummy_node).nend
          = (tree.getD l dummy_node).nend := by
    intro l hl
    by_cases hlnb : l < nb
    · rw [hR1 l hlnb]
      exact ⟨rfl, rfl⟩
    · have hj : l = nb + (l - nb) := by omega
      have hjlt : l - nb < curN := by omega
      rw [hj, hR2 _ hjlt]
      rcases hclnc (cl.getD (l - nb) dummy_cl) (getD_mem_of_lt _ _ _ (by omega)) with h0 | h2
      · rw [(hspec (l - nb) (by omega)).1 h0]
        have hlf := classifyNode_leaf_facts mc lbs ubs (tree.getD (nb + (l - nb)) dummy_node)
          (cl.getD (l - nb) dummy_cl).1 (cl.getD (l - nb) dummy_cl).2.2 (hcls0 _ hjlt h0)
        simp only [finalize_leaf]
        exact ⟨hlf.1, hlf.2.1⟩
      · obtain ⟨k, _, hk2, _, _⟩ := (hspec (l - nb) (by omega)).2 h2
        rw [hk2]
        have hif := classifyNode_internal_facts mc lbs ubs
          (tree.getD (nb + (l - nb)) dummy_node)
          (cl.getD (l - nb) dummy_cl).1 (cl.getD (l - nb) dummy_cl).2.2 (hcls2 _ hjlt h2)
        simp only [finalize_internal]
        exact ⟨hif.2.2.2.2.1, hif.2.2.2.2.2.1⟩
  refine ⟨?_, ?_, ?_, ?_⟩
  · rw [hlen']
    omega
  · intro i hi
    rw [hlen'] at hi
    by_cases hiT : i < T
    · rw [(hpres i hiT).1, (hpres i hiT).2]
      exact hbe i hiT
    · have hk : i = T + (i - T) := by omega
      rw [hk, hR3]
      have hmem : cs.getD (i - T) dummy_node ∈ cs := getD_mem_of_lt _ _ _ (by omega)
      exact (hcsfacts _ hmem).2.2
  · intro i hi
    have hiT : i < T := by
      rw [hlen'] at hi
      omega
    intro hleft
    by_cases hlnb : i < nb
    · rw [hR1 i hlnb] at hleft ⊢
      obtain ⟨l, hl1, hl2, hl3, hl4, hl5, hl6, hl7, hl8⟩ := hint i (by omega) hleft
      have hlT : l < T := by omega
      have hl1T : l + 1 < T := hl4
      refine ⟨l, hl1, hl2, hl3, by rw [hlen']; omega, ?_, ?_, ?_, ?_⟩
      · rw [(hpres l hlT).1]
        exact hl5
      · rw [(hpres (l + 1) hl1T).1, (hpres l hlT).2]
        exact hl6
      · rw [(hpres (l + 1) hl1T).2]
        exact hl7
      · rw [(hpres l hlT).2]
        exact hl8
    · have hj : i = nb + (i - nb) := by omega
      have hjlt : i - nb < curN := by omega
      rw [hj, hR2 _ hjlt] at hleft ⊢
      rcases hclnc (cl.getD (i - nb) dummy_cl) (getD_mem_of_lt _ _ _ (by omega)) with h0 | h2
      · rw [(hspec (i - nb) (by omega)).1 h0] at hleft
        have hlf := classifyNode_leaf_facts mc lbs ubs (tree.getD (nb + (i - nb)) dummy_node)
          (cl.getD (i - nb) dummy_cl).1 (cl.getD (i - nb) dummy_cl).2.2 (hcls0 _ hjlt h0)
        have hfr := hfreshlev (i - nb) hjlt
        simp only [finalize_leaf] at hleft
        rw [hlf.2.2.2.1, hfr.1] at hleft
        exact absurd rfl hleft
      · obtain ⟨k, hk1, hk2, hk3, hk4⟩ := (hspec (i - nb) (by omega)).2 h2
        have hif := classifyNode_internal_facts mc lbs ubs
          (tree.getD (nb + (i - nb)) dummy_node)
          (cl.getD (i - nb) dummy_cl).1 (cl.getD (i - nb) dummy_cl).2.2 (hcls2 _ hjlt h2)
        rw [hk2]
        refine ⟨T + 0 + k, ?_, ?_, ?_, ?_, ?_, ?_, ?_, ?_⟩
        · simp [finalize_internal]
        · simp [finalize_internal]
        · omega
        · rw [hlen']
          omega
        · rw [show T + 0 + k = T + (0 + k) by omega, hR3, show (0 + k) = k by omega, hk3]
          simp [mk_left_child, finalize_internal]
        · rw [show T + 0 + k + 1 = T + (k + 1) by omega, hR3,
            show T + 0 + k = T + (0 + k) by omega, hR3, show (0 + k) = k by omega, hk3, hk4]
          simp [mk_left_child, mk_right_child]
        · rw [show T + 0 + k + 1 = T + (k + 1) by omega, hR3, hk4]
          simp [mk_right_child, finalize_internal]
        · rw [show T + 0 + k = T + (0 + k) by omega, hR3, show (0 + k) = k by omega, hk3]
          simp only [mk_left_child, finalize_internal]
          omega
  · intro i h1 h2
    rw [hlen'] at h1 h2
    have hk : i = T + (i - T) := by omega
    rw [hk, hR3]
    have hmem : cs.getD (i - T) dummy_node ∈ cs := getD_mem_of_lt _ _ _ (by omega)
    exact ⟨(hcsfacts _ hmem).1, (hcsfacts _ hmem).2.1⟩

/-- The invariant carries to the tree the level loop returns: at the end
every node's range is nonempty and every node satisfies the range
relations. -/
theorem buildLoop_inv (mc : ℕ → ℕ) (lbs ubs : ℕ → Box4) :
    ∀ (fuel : ℕ) (tree : List bvh_node) (curN : ℕ) (t : List bvh_node),
      loop_inv tree curN → buildLoop mc lbs ubs fuel tree curN = some t →
      (∀ i, i < t.length → (t.getD i dummy_node).nbegin < (t.getD i dummy_node).nend)
        ∧ (∀ i, i < t.length → internal_ok t i) := by
  intro fuel
  induction fuel with
  | zero =>
    intro tree curN t _ h
    exact absurd h (by simp [buildLoop])
  | succ fuel ih =>
    intro tree curN t hinv h
    by_cases hc0 : curN = 0
    · subst hc0
      rw [buildLoop_done] at h
      have ht : tree = t := Option.some.inj h
      subst ht
      obtain ⟨_, hbe, hint, _⟩ := hinv
      refine ⟨hbe, ?_⟩
      intro i hi
      exact hint i (by omega)
    · rw [buildLoop_succ mc lbs ubs fuel tree curN hc0] at h
      exact ih _ _ t (loop_inv_step mc lbs ubs tree curN hinv hc0) h

/-- Two nodes that agree on every field except the AABB. -/
def same_struct (a b : bvh_node) : Prop :=
  a.nbegin = b.nbegin ∧ a.nend = b.nend ∧ a.parent = b.parent ∧ a.left = b.left ∧
    a.right = b.right ∧ a.nn_level = b.nn_level ∧ a.split_idx = b.split_idx

theorem same_struct_refl (a : bvh_node) : same_struct a a :=
  ⟨rfl, rfl, rfl, rfl, rfl, rfl, rfl⟩

theorem same_struct_trans {a b c : bvh_node} (h1 : same_struct a b) (h2 : same_struct b c) :
    same_struct a c := by
  obtain ⟨x1, x2, x3, x4, x5, x6, x7⟩ := h1
  obtain ⟨y1, y2, y3, y4, y5, y6, y7⟩ := h2
  exact ⟨x1.trans y1, x2.trans y2, x3.trans y3, x4.trans y4, x5.trans y5, x6.trans y6,
    x7.trans y7⟩

/-- The backward-pass update touches only lb/ub. -/
theorem backUpdate_length (t : List bvh_node) (nb ne : ℕ) :
    (backUpdate t nb ne).length = t.length := by
  simp [backUpdate]

theorem backUpdate_same (t : List bvh_node) (nb ne i : ℕ) :
    same_struct ((backUpdate t nb ne).getD i dummy_node) (t.getD i dummy_node) := by
  by_cases hi : i < t.length
  · rw [backUpdate, getD_map_lt _ 0 dummy_node _ i (by simpa using hi)]
    rw [List.getD_eq_getElem _ 0 (by simpa using hi), List.getElem_range]
    by_cases h1 : nb ≤ i ∧ i < ne
    · rw [if_pos h1]
      by_cases h2 : (t.getD i dummy_node).left = -1
      · rw [if_pos h2]
        exact same_struct_refl _
      · rw [if_neg h2]
        exact ⟨rfl, rfl, rfl, rfl, rfl, rfl, rfl⟩
    · rw [if_neg h1]
      exact same_struct_refl _
  · rw [List.getD_eq_default _ _ (by rw [backUpdate_length]; omega),
      List.getD_eq_default _ _ (by omega)]
    exact same_struct_refl _

theorem backLoopA_length :
    ∀ (fuel : ℕ) (t : List bvh_node) (nb ne : ℕ),
      (backLoopA fuel t nb ne).length = t.length := by
  intro fuel
  induction fuel with
  | zero => intro t nb ne; rfl
  | succ fuel ih =>
    intro t nb ne
    rw [backLoopA]
    by_cases h : nb = 0
    · rw [if_pos h, backUpdate_length]
    · rw [if_neg h, ih, backUpdate_length]

theorem backLoopA_same :
    ∀ (fuel : ℕ) (t : List bvh_node) (nb ne i : ℕ),
      same_struct ((backLoopA fuel t nb ne).getD i dummy_node) (t.getD i dummy_node) := by
  intro fuel
  induction fuel with
  | zero => intro t nb ne i; exact same_struct_refl _
  | succ fuel ih =>
    intro t nb ne i
    rw [backLoopA]
    by_cases h : nb = 0
    · rw [if_pos h]
      exact backUpdate_same t nb ne i
    · rw [if_neg h]
      exact same_struct_trans (ih _ _ _ i) (backUpdate_same t nb ne i)

/-- The backward AABB pass preserves the tree's length. -/
theorem backpass_length (t : List bvh_node) : (bvh_aabb_backpass t).length = t.length := by
  rw [bvh_aabb_backpass]
  by_cases h : t.length - (t.getD (t.length - 1) dummy_node).nn_level = 0
  · rw [if_pos h]
  · rw [if_neg h, backLoopA_length]

/-- The backward AABB pass preserves every structural field of every
node. -/
theorem backpass_same (t : List bvh_node) (i : ℕ) :
    same_struct ((bvh_aabb_backpass t).getD i dummy_node) (t.getD i dummy_node) := by
  rw [bvh_aabb_backpass]
  by_cases h : t.length - (t.getD (t.length - 1) dummy_node).nn_level = 0
  · rw [if_pos h]
    exact same_struct_refl _
  · rw [if_neg h]
    exact backLoopA_same _ _ _ _ i

/-- C4: BVH range invariant.  For every completed tree over at least one
particle, every node's range is nonempty (`end > begin`), and every
internal node's children relations hold: `tree[left].begin = begin`,
`tree[right].end = end`, `tree[left].end = tree[right].begin`, and
`tree[left].end < end` — so in particular both children of an internal
node are non-empty. -/
theorem bvh_range_invariant (nparts : ℕ) (mc : ℕ → ℕ) (lbs ubs : ℕ → Box4)
    (t : List bvh_node) (hP : 1 ≤ nparts)
    (ht : construct_bvh_tree nparts mc lbs ubs = some t) :
    ∀ i, i < t.length →
      (t.getD i dummy_node).nbegin < (t.getD i dummy_node).nend ∧ internal_ok t i := by
  rw [construct_bvh_tree] at ht
  rcases hb : buildLoop mc lbs ubs 66 [rootNode nparts] 1 with _ | t0
  · rw [hb] at ht
    simp at ht
  · rw [hb] at ht
    simp only [Option.map_some'] at ht
    have hback : bvh_aabb_backpass t0 = t := Option.some.inj ht
    have hinv0 : loop_inv [rootNode nparts] 1 := by
      refine ⟨by simp, ?_, ?_, ?_⟩
      · intro i hi
        simp at hi
        subst hi
        simpa [rootNode] using hP
      · intro i hi
        simp at hi
      · intro i h1 h2
        simp at h2
        subst h2
        exact ⟨rfl, rfl⟩
    have hprops := buildLoop_inv mc lbs ubs 66 [rootNode nparts] 1 t0 hinv0 hb
    subst hback
    intro i hi
    rw [backpass_length] at hi
    have hsame := backpass_same t0
    constructor
    · rw [(hsame i).1, (hsame i).2.1]
      exact hprops.1 i hi
    · intro hleft
      have hleft0 : (t0.getD i dummy_node).left ≠ -1 := by
        rw [← (hsame i).2.2.2.1]
        exact hleft
      obtain ⟨l, hl1, hl2, hl3, hl4, hl5, hl6, hl7, hl8⟩ := hprops.2 i hi hleft0
      refine ⟨l, ?_, ?_, hl3, ?_, ?_, ?_, ?_, ?_⟩
      · rw [(hsame i).2.2.2.1]
        exact hl1
      · rw [(hsame i).2.2.2.2.1]
        exact hl2
      · rw [backpass_length]
        exact hl4
      · rw [(hsame l).1, (hsame i).1]
        exact hl5
      · rw [(hsame (l + 1)).1, (hsame l).2.1]
        exact hl6
      · rw [(hsame (l + 1)).2.1, (hsame i).2.1]
        exact hl7
      · rw [(hsame l).2.1, (hsame i).2.1]
        exact hl8

/-- The Morton codes of the two-particle scenario: particle 0 has code 0
and particle 1 has the top bit set. -/
def mcW2 : ℕ → ℕ := fun i => if i = 0 then 0 else 2 ^ 63

/-- The completed two-particle tree used as a concrete witness. -/
def treeW : List bvh_node := (construct_bvh_tree 2 mcW2 (fun _ => boxW) (fun _ => boxW2)).getD []

theorem bvh_range_invariant_witness :
    (treeW.getD 0 dummy_node).nbegin < (treeW.getD 0 dummy_node).nend ∧ internal_ok treeW 0 :=
  bvh_range_invariant 2 mcW2 (fun _ => boxW) (fun _ => boxW2) treeW (by omega) (by decide)
    0 (by decide)

/-- The `first_diff_bit` debug helper of src/sim_bvh.cpp, lines 59-80:
for 64-bit values, the index counted from the most significant bit of
the first differing bit (the leading-zero count of the xor), and the
digit count 64 when the two values are equal. -/
def first_diff_bit (n1 n2 : ℕ) : ℕ :=
  if n1 ^^^ n2 = 0 then 64 else 63 - (n1 ^^^ n2).log2

/-- Peeling one bit off a division by a power of two. -/
theorem nat_div_pow_succ (a k : ℕ) :
    a / 2 ^ k = 2 * (a / 2 ^ (k + 1)) + (a.testBit k).toNat := by
  have h1 : a / 2 ^ (k + 1) = a / 2 ^ k / 2 := by
    rw [pow_succ, Nat.div_div_eq_div_mul]
  have h2 : a.testBit k = decide (a / 2 ^ k % 2 = 1) := Nat.testBit_to_div_mod
  rcases Nat.mod_two_eq_zero_or_one (a / 2 ^ k) with h | h
  · rw [h1, h2, h]
    norm_num
    omega
  · rw [h1, h2, h]
    norm_num
    omega

/-- A bit is set iff the remainder modulo the next power reaches the
bit's weight. -/
theorem testBit_eq_decide_mod (a k : ℕ) :
    a.testBit k = decide (2 ^ k ≤ a % 2 ^ (k + 1)) := by
  have h2 : a.testBit k = decide (a / 2 ^ k % 2 = 1) := Nat.testBit_to_div_mod
  have hsplit : a % 2 ^ (k + 1) = a % 2 ^ k + 2 ^ k * (a / 2 ^ k % 2) := by
    rw [pow_succ, Nat.mod_mul]
  have hlt : a % 2 ^ k < 2 ^ k := Nat.mod_lt _ (by positivity)
  rcases Nat.mod_two_eq_zero_or_one (a / 2 ^ k) with h | h
  · rw [h2, h, hsplit, h]
    simp only [mul_zero, add_zero, decide_eq_decide]
    exact iff_of_false (by omega) (by omega)
  · rw [h2, h, hsplit, h]
    simp only [mul_one, decide_eq_decide]
    exact iff_of_true trivial (by omega)

/-- Remainders are ordered when the values are ordered and their
quotients agree. -/
theorem mod_le_mod_of_div_eq (a b D : ℕ) (hab : a ≤ b) (hdiv : a / D = b / D) :
    a % D ≤ b % D := by
  have h1 := Nat.div_add_mod a D
  have h2 := Nat.div_add_mod b D
  rw [hdiv] at h1
  have hle : D * (b / D) + a % D ≤ D * (b / D) + b % D := by
    rw [h1, h2]
    exact hab
  exact Nat.le_of_add_le_add_left hle

/-- With equal quotients above the bit, a set bit propagates upward along
the order. -/
theorem bit_mono (a b k : ℕ) (hab : a ≤ b) (hagree : a / 2 ^ (k + 1) = b / 2 ^ (k + 1))
    (ha : a.testBit k = true) : b.testBit k = true := by
  rw [testBit_eq_decide_mod] at ha ⊢
  simp only [decide_eq_true_eq] at ha ⊢
  exact le_trans ha (mod_le_mod_of_div_eq a b (2 ^ (k + 1)) hab hagree)

/-- Extending agreement on the top `s` bits by one more equal bit. -/
theorem agree_succ (a b s : ℕ) (hs : s ≤ 63) (hagree : a / 2 ^ (64 - s) = b / 2 ^ (64 - s))
    (hbit : a.testBit (63 - s) = b.testBit (63 - s)) :
    a / 2 ^ (64 - (s + 1)) = b / 2 ^ (64 - (s + 1)) := by
  have hk : 64 - s = (63 - s) + 1 := by omega
  have h64 : 64 - (s + 1) = 63 - s := by omega
  rw [h64, nat_div_pow_succ a (63 - s), nat_div_pow_succ b (63 - s), ← hk, hagree, hbit]

/-- The first-different-bit index of two 64-bit values that agree on
their top `s` bits and differ at the next one. -/
theorem fdb_of_flip (a b s : ℕ) (hs : s ≤ 63)
    (hagree : a / 2 ^ (64 - s) = b / 2 ^ (64 - s))
    (hba : a.testBit (63 - s) = false) (hbb : b.testBit (63 - s) = true) :
    first_diff_bit a b = s := by
  have hbitx : (a ^^^ b).testBit (63 - s) = true := by
    rw [Nat.testBit_xor, hba, hbb]
    rfl
  have hxlow : 2 ^ (63 - s) ≤ a ^^^ b := by
    have hmod := testBit_eq_decide_mod (a ^^^ b) (63 - s)
    rw [hbitx] at hmod
    have := of_decide_eq_true hmod.symm
    exact le_trans this (Nat.mod_le _ _)
  have hxhigh : a ^^^ b < 2 ^ (64 - s) := by
    have hsh : (a ^^^ b) >>> (64 - s) = 0 := by
      apply Nat.eq_of_testBit_eq
      intro i
      rw [Nat.testBit_shiftRight, Nat.zero_testBit, Nat.testBit_xor]
      have hta : a.testBit (64 - s + i) = b.testBit (64 - s + i) := by
        have ha1 : a.testBit (64 - s + i) = (a >>> (64 - s)).testBit i :=
          (Nat.testBit_shiftRight a).symm
        have hb1 : b.testBit (64 - s + i) = (b >>> (64 - s)).testBit i :=
          (Nat.testBit_shiftRight b).symm
        rw [ha1, hb1, Nat.shiftRight_eq_div_pow, Nat.shiftRight_eq_div_pow, hagree]
      rw [hta]
      simp
    rw [Nat.shiftRight_eq_div_pow] at hsh
    exact (Nat.div_eq_zero_iff (by positivity)).mp hsh
  have hxne : a ^^^ b ≠ 0 := by
    intro h0
    rw [h0, Nat.zero_testBit] at hbitx
    exact Bool.false_ne_true hbitx
  have hlog : (a ^^^ b).log2 = 63 - s := by
    rw [Nat.log2_eq_log_two]
    have hk : 64 - s = (63 - s) + 1 := by omega
    exact Nat.log_eq_of_pow_le_of_lt_pow hxlow (by rw [← hk]; exact hxhigh)
  rw [first_diff_bit, if_neg hxne, hlog]
  omega

/-- Everything before the scanned first set bit is clear. -/
theorem firstFlipA_clear (mc : ℕ → ℕ) (pos : ℕ) :
    ∀ (cnt b i : ℕ), b ≤ i → i < firstFlipA mc pos b cnt → (mc i).testBit pos = false := by
  intro cnt
  induction cnt with
  | zero =>
    intro b i h1 h2
    rw [firstFlipA] at h2
    omega
  | succ cnt ih =>
    intro b i h1 h2
    rw [firstFlipA] at h2
    by_cases hb : (mc b).testBit pos
    · rw [if_pos hb] at h2
      omega
    · rw [if_neg hb] at h2
      by_cases hib : i = b
      · subst hib
        simpa using hb
      · exact ih (b + 1) i (by omega) h2

/-- A scan result inside the range has its bit set. -/
theorem firstFlipA_set (mc : ℕ → ℕ) (pos : ℕ) :
    ∀ (cnt b : ℕ), firstFlipA mc pos b cnt < b + cnt →
      (mc (firstFlipA mc pos b cnt)).testBit pos = true := by
  intro cnt
  induction cnt with
  | zero =>
    intro b h
    rw [firstFlipA] at h
    exact absurd h (by omega)
  | succ cnt ih =>
    intro b h
    rw [firstFlipA] at h ⊢
    by_cases hb : (mc b).testBit pos
    · rw [if_pos hb]
      exact hb
    · rw [if_neg hb] at h ⊢
      exact ih (b + 1) (by omega)

/-- Threading the prefix-agreement invariant through the split search:
when the search accepts `(s, p)` on a sorted range, all codes of the
range agree on their top `s` bits, codes before `p` have bit `63 - s`
clear and codes from `p` on have it set. -/
theorem splitSearchA_agree (mc : ℕ → ℕ) (P b e : ℕ)
    (hsort : ∀ i j, i ≤ j → j < P → mc i ≤ mc j) (hbe : b < e) (heP : e ≤ P) :
    ∀ fuel split s p, splitSearchA mc b e fuel split = some (s, p) →
      (∀ i1 i2, b ≤ i1 → i1 < e → b ≤ i2 → i2 < e →
        mc i1 / 2 ^ (64 - split) = mc i2 / 2 ^ (64 - split)) →
      split ≤ 63 →
      (∀ i1 i2, b ≤ i1 → i1 < e → b ≤ i2 → i2 < e →
          mc i1 / 2 ^ (64 - s) = mc i2 / 2 ^ (64 - s)) ∧
        (∀ i, b ≤ i → i < p → (mc i).testBit (63 - s) = false) ∧
        (∀ i, p ≤ i → i < e → (mc i).testBit (63 - s) = true) := by
  intro fuel
  induction fuel with
  | zero =>
    intro split s p h
    exact absurd h (by simp [splitSearchA])
  | succ fuel ih =>
    intro split s p h hagree hs63
    have hbody : splitSearchA mc b e (fuel + 1) split
        = if findFlip mc split b e = b ∨ findFlip mc split b e = e then
            (if 63 ≤ split then none else splitSearchA mc b e fuel (split + 1))
          else some (split, findFlip mc split b e) := rfl
    rw [hbody] at h
    have hffb := firstFlipA_bounds mc (63 - split) (e - b) b
    by_cases hp : findFlip mc split b e = b ∨ findFlip mc split b e = e
    · rw [if_pos hp] at h
      by_cases hs : 63 ≤ split
      · rw [if_pos hs] at h
        exact absurd h (by simp)
      · rw [if_neg hs] at h
        have hbits : ∀ i, b ≤ i → i < e →
            (mc i).testBit (63 - split) = (mc b).testBit (63 - split) := by
          rcases hp with hp | hp
          · rw [findFlip] at hp
            have hsetb : (mc b).testBit (63 - split) = true := by
              have hset := firstFlipA_set mc (63 - split) (e - b) b (by omega)
              rw [hp] at hset
              exact hset
            intro i hi1 hi2
            rw [hsetb]
            have hk : 64 - split = (63 - split) + 1 := by omega
            exact bit_mono (mc b) (mc i) (63 - split) (hsort b i hi1 (by omega))
              (by rw [← hk]; exact hagree b i (le_refl b) hbe hi1 hi2) hsetb
          · rw [findFlip] at hp
            intro i hi1 hi2
            have hc := firstFlipA_clear mc (63 - split) (e - b) b i hi1 (by omega)
            have hcb := firstFlipA_clear mc (63 - split) (e - b) b b (le_refl b) (by omega)
            rw [hc, hcb]
        have hagree2 : ∀ i1 i2, b ≤ i1 → i1 < e → b ≤ i2 → i2 < e →
            mc i1 / 2 ^ (64 - (split + 1)) = mc i2 / 2 ^ (64 - (split + 1)) := by
          intro i1 i2 h1 h2 h3 h4
          exact agree_succ (mc i1) (mc i2) split (by omega)
            (hagree i1 i2 h1 h2 h3 h4) ((hbits i1 h1 h2).trans (hbits i2 h3 h4).symm)
        exact ih (split + 1) s p h hagree2 (by omega)
    · rw [if_neg hp] at h
      have hpair := Option.some.inj h
      have h1 : split = s := congrArg Prod.fst hpair
      have h2 : findFlip mc split b e = p := congrArg Prod.snd hpair
      push_neg at hp
      rw [h2] at hp
      rw [findFlip] at h2
      have hbp : b < p ∧ p < e := by
        rcases hffb with ⟨hl, hr⟩
        rcases hp with ⟨hpb, hpe⟩
        omega
      subst h1
      refine ⟨hagree, ?_, ?_⟩
      · intro i hi1 hi2
        apply firstFlipA_clear mc (63 - split) (e - b) b i hi1
        omega
      · intro i hi1 hi2
        have hpset : (mc p).testBit (63 - split) = true := by
          have hset := firstFlipA_set mc (63 - split) (e - b) b (by omega)
          rw [h2] at hset
          exact hset
        have hk : 64 - split = (63 - split) + 1 := by omega
        exact bit_mono (mc p) (mc i) (63 - split) (hsort p i hi1 (by omega))
          (by rw [← hk]; exact hagree p i (by omega) (by omega) (by omega) hi2) hpset

/-- An internal classification records exactly the split search's
result: the stored split index and the left-child particle count come
from `splitSearch` on the node's range. -/
theorem classifyNode_internal_split (mc : ℕ → ℕ) (lbs ubs : ℕ → Box4) (n n' : bvh_node)
    (nplc : ℕ) (hcl : classifyNode mc lbs ubs n = (n', 2, nplc)) :
    splitSearch mc n.nbegin n.nend n.split_idx = some (n'.split_idx, n.nbegin + nplc) := by
  unfold classifyNode at hcl
  by_cases hg : 1 < n.nend - n.nbegin ∧ n.split_idx ≤ 63
  · rw [if_pos hg] at hcl
    rcases hsp : splitSearch mc n.nbegin n.nend n.split_idx with _ | ⟨s, p⟩
    · rw [hsp] at hcl
      have hfalse := congrArg (fun t => t.2.1) hcl
      simp at hfalse
    · rw [hsp] at hcl
      have hn' : ({n with split_idx := s} : bvh_node) = n' := congrArg (fun t => t.1) hcl
      have hnplc : p - n.nbegin = nplc := congrArg (fun t => t.2.2) hcl
      have hfacts := splitSearchA_some_facts mc n.nbegin n.nend 64 n.split_idx s p hg.2 hsp
      have hrange := hfacts.2.2 (by omega)
      have hp' : n.nbegin + nplc = p := by omega
      subst hn'
      rw [hp']
  · rw [if_neg hg] at hcl
    have hfalse := congrArg (fun t => t.2.1) hcl
    simp at hfalse

/-- Agreement of a range of codes on their top `s` bits: any two codes
of `[b, e)` have equal quotients by `2^(64 - s)`. -/
def range_agree (mc : ℕ → ℕ) (s b e : ℕ) : Prop :=
  ∀ i1 i2, b ≤ i1 → i1 < e → b ≤ i2 → i2 < e →
    mc i1 / 2 ^ (64 - s) = mc i2 / 2 ^ (64 - s)

/-- The C5 relation at index `i`: an internal node's stored split index
is the first-different-bit index of the codes straddling its children's
boundary — the left child's last particle and the right child's first
(which is `tree[left].end`). -/
def split_ok (mc : ℕ → ℕ) (t : List bvh_node) (i : ℕ) : Prop :=
  (t.getD i dummy_node).left ≠ -1 →
    ∃ l : ℕ, (t.getD i dummy_node).left = (l : Int) ∧ l < t.length ∧
      0 < (t.getD l dummy_node).nend ∧
      first_diff_bit (mc ((t.getD l dummy_node).nend - 1)) (mc ((t.getD l dummy_node).nend))
        = (t.getD i dummy_node).split_idx

/-- The split-rule invariant carried through the level loop: every
node's range is nonempty and within the particle count, every current
(fresh) node's codes agree on the top `split_idx` bits, and every
already-finalised node satisfies the C5 relation. -/
def split_inv (mc : ℕ → ℕ) (P : ℕ) (t : List bvh_node) (curN : ℕ) : Prop :=
  curN ≤ t.length ∧
    (∀ i, i < t.length →
      (t.getD i dummy_node).nbegin < (t.getD i dummy_node).nend ∧
        (t.getD i dummy_node).nend ≤ P) ∧
    (∀ i, t.length - curN ≤ i → i < t.length →
      (t.getD i dummy_node).left = -1 ∧
        range_agree mc (t.getD i dummy_node).split_idx (t.getD i dummy_node).nbegin
          (t.getD i dummy_node).nend) ∧
    (∀ i, i < t.length - curN → split_ok mc t i)

/-- Analysis of a node classified internal over a sorted code range: the
accepted split index is the first-different-bit index of the codes at
the children's boundary, and each child's codes agree one bit deeper. -/
theorem internal_classify_analysis (mc : ℕ → ℕ) (P : ℕ) (lbs ubs : ℕ → Box4)
    (hsort : ∀ i j, i ≤ j → j < P → mc i ≤ mc j) (orig n' : bvh_node) (nplc : ℕ)
    (hcl : classifyNode mc lbs ubs orig = (n', 2, nplc))
    (hbe : orig.nbegin < orig.nend) (heP : orig.nend ≤ P)
    (hagree : range_agree mc orig.split_idx orig.nbegin orig.nend) :
    first_diff_bit (mc (orig.nbegin + nplc - 1)) (mc (orig.nbegin + nplc)) = n'.split_idx ∧
      range_agree mc (n'.split_idx + 1) orig.nbegin (orig.nbegin + nplc) ∧
      range_agree mc (n'.split_idx + 1) (orig.nbegin + nplc) orig.nend := by
  obtain ⟨hg1, hg2, hle, hs63, hnb1, hne1, -, -, -, -, hnplc, hplt⟩ :=
    classifyNode_internal_facts mc lbs ubs orig n' nplc hcl
  have hsplit := classifyNode_internal_split mc lbs ubs orig n' nplc hcl
  obtain ⟨hag, hclear, hset⟩ := splitSearchA_agree mc P orig.nbegin orig.nend hsort hbe heP
    64 orig.split_idx n'.split_idx (orig.nbegin + nplc) hsplit hagree hg2
  refine ⟨?_, ?_, ?_⟩
  · apply fdb_of_flip _ _ _ hs63
    · exact hag (orig.nbegin + nplc - 1) (orig.nbegin + nplc) (by omega) (by omega) (by omega)
        (by omega)
    · exact hclear (orig.nbegin + nplc - 1) (by omega) (by omega)
    · exact hset (orig.nbegin + nplc) (by omega) (by omega)
  · intro i1 i2 h1 h2 h3 h4
    exact agree_succ (mc i1) (mc i2) n'.split_idx hs63
      (hag i1 i2 h1 (by omega) h3 (by omega))
      ((hclear i1 h1 h2).trans (hclear i2 h3 h4).symm)
  · intro i1 i2 h1 h2 h3 h4
    exact agree_succ (mc i1) (mc i2) n'.split_idx hs63
      (hag i1 i2 (by omega) h2 (by omega) h4)
      ((hset i1 h1 h2).trans (hset i2 h3 h4).symm)

/-- One level iteration preserves the split-rule invariant. -/
theorem split_inv_step (mc : ℕ → ℕ) (P : ℕ) (lbs ubs : ℕ → Box4)
    (hsort : ∀ i j, i ≤ j → j < P → mc i ≤ mc j) (tree : List bvh_node) (curN : ℕ)
    (hinv : split_inv mc P tree curN) (hc0 : curN ≠ 0) :
    split_inv mc P (stepLevel mc lbs ubs tree curN).1 (stepLevel mc lbs ubs tree curN).2 := by
  obtain ⟨hlen, hrange, hfresh, hok⟩ := hinv
  have hfst : (stepLevel mc lbs ubs tree curN).1
      = tree.take (tree.length - curN)
        ++ (finalizeLevel tree.length curN (tree.length - curN) 0
            ((tree.drop (tree.length - curN)).map (classifyNode mc lbs ubs))).1
        ++ (finalizeLevel tree.length curN (tree.length - curN) 0
            ((tree.drop (tree.length - curN)).map (classifyNode mc lbs ubs))).2 := rfl
  have hsnd : (stepLevel mc lbs ubs tree curN).2
      = curN * 2 - (((tree.drop (tree.length - curN)).map (classifyNode mc lbs ubs)).filter
          (fun t => t.2.1 = 0)).length * 2 := rfl
  rw [hfst, hsnd]
  set T := tree.length with hT
  set nb := T - curN with hnb
  set cl := (tree.drop nb).map (classifyNode mc lbs ubs) with hcldef
  set fin := (finalizeLevel T curN nb 0 cl).1 with hfindef
  set cs := (finalizeLevel T curN nb 0 cl).2 with hcsdef
  have hclnc : ∀ x ∈ cl, x.2.1 = 0 ∨ x.2.1 = 2 := by
    intro x hx
    rw [hcldef] at hx
    obtain ⟨orig, _, horig⟩ := List.mem_map.mp hx
    rw [← horig]
    exact classifyNode_nc mc lbs ubs orig
  have hlevlen : (tree.drop nb).length = curN := by
    rw [List.length_drop, hnb]
    omega
  have hcllen : cl.length = curN := by
    rw [hcldef, List.length_map, hlevlen]
  have hfinlen : fin.length = curN := by
    rw [hfindef, finalizeLevel_fst_length, hcllen]
  have htakelen : (tree.take nb).length = nb := by
    rw [List.length_take]
    omega
  have hsndlen := finalizeLevel_snd_length T curN cl nb 0
  have hfltle : (cl.filter (fun t => t.2.1 = 0)).length ≤ cl.length :=
    List.length_filter_le _ _
  have hsnd2 : curN * 2 - (cl.filter (fun t => t.2.1 = 0)).length * 2 = cs.length := by
    rw [hcllen] at hsndlen hfltle
    rw [← hcsdef] at hsndlen
    omega
  rw [hsnd2]
  have hclget : ∀ j, j < curN →
      cl.getD j dummy_cl = classifyNode mc lbs ubs (tree.getD (nb + j) dummy_node) := by
    intro j hj
    rw [hcldef, getD_map_lt (classifyNode mc lbs ubs) dummy_node dummy_cl _ j
      (by rw [hlevlen]; exact hj), getD_drop_add]
  have hcls0 : ∀ j, j < curN → (cl.getD j dummy_cl).2.1 = 0 →
      classifyNode mc lbs ubs (tree.getD (nb + j) dummy_node)
        = ((cl.getD j dummy_cl).1, 0, (cl.getD j dummy_cl).2.2) := by
    intro j hj h0
    rw [← h0]
    exact (hclget j hj).symm
  have hcls2 : ∀ j, j < curN → (cl.getD j dummy_cl).2.1 = 2 →
      classifyNode mc lbs ubs (tree.getD (nb + j) dummy_node)
        = ((cl.getD j dummy_cl).1, 2, (cl.getD j dummy_cl).2.2) := by
    intro j hj h2
    rw [← h2]
    exact (hclget j hj).symm
  have hR1 : ∀ i, i < nb →
      ((tree.take nb ++ fin ++ cs).getD i dummy_node) = tree.getD i dummy_node := by
    intro i hi
    rw [List.getD_append _ _ _ _ (by rw [List.length_append, htakelen, hfinlen]; omega),
      List.getD_append _ _ _ _ (by rw [htakelen]; omega), getD_take_lt _ _ _ _ hi]
  have hR2 : ∀ j, j < curN →
      ((tree.take nb ++ fin ++ cs).getD (nb + j) dummy_node) = fin.getD j dummy_node := by
    intro j hj
    rw [List.getD_append _ _ _ _ (by rw [List.length_append, htakelen, hfinlen]; omega),
      List.getD_append_right _ _ _ _ (by rw [htakelen]; omega), htakelen]
    congr 1
    omega
  have hR3 : ∀ k,
      ((tree.take nb ++ fin ++ cs).getD (T + k) dummy_node) = cs.getD k dummy_node := by
    intro k
    rw [List.getD_append_right _ _ _ _
      (by rw [List.length_append, htakelen, hfinlen]; omega)]
    congr 1
    rw [List.length_append, htakelen, hfinlen]
    omega
  have hlen' : (tree.take nb ++ fin ++ cs).length = T + cs.length := by
    rw [List.length_append, List.length_append, htakelen, hfinlen]
    omega
  have hspec := finalizeLevel_spec T curN cl nb 0 hclnc
  have hfreshlev2 : ∀ j, j < curN →
      (tree.getD (nb + j) dummy_node).left = -1 ∧
        range_agree mc (tree.getD (nb + j) dummy_node).split_idx
          (tree.getD (nb + j) dummy_node).nbegin (tree.getD (nb + j) dummy_node).nend := by
    intro j hj
    exact hfresh (nb + j) (by omega) (by omega)
  have hcsfacts2 : ∀ c ∈ cs, c.left = -1 ∧ c.nbegin < c.nend ∧ c.nend ≤ P ∧
      range_agree mc c.split_idx c.nbegin c.nend := by
    intro c hc
    obtain ⟨x, hx, hxnc, q, hq⟩ := finalizeLevel_snd_mem T curN cl nb 0 c hc
    obtain ⟨orig, horigmem, horig⟩ := List.mem_map.mp (hcldef ▸ hx)
    obtain ⟨idx, hidx, hgetidx⟩ := List.getElem_of_mem horigmem
    have hidx2 : idx < curN := by
      rw [hlevlen] at hidx
      exact hidx
    have horigidx : orig = tree.getD (nb + idx) dummy_node := by
      rw [← hgetidx, ← List.getD_eq_getElem (tree.drop nb) dummy_node hidx, getD_drop_add]
    have hx2 : x.2.1 = 2 := by
      rcases hclnc x hx with h0 | h2
      · exact absurd h0 hxnc
      · exact h2
    have hcls : classifyNode mc lbs ubs orig = (x.1, 2, x.2.2) := by
      rw [← hx2]
      exact horig
    have hbeo : orig.nbegin < orig.nend ∧ orig.nend ≤ P := by
      rw [horigidx]
      exact hrange (nb + idx) (by omega)
    have hago : range_agree mc orig.split_idx orig.nbegin orig.nend := by
      rw [horigidx]
      exact (hfreshlev2 idx hidx2).2
    have hana := internal_classify_analysis mc P lbs ubs hsort orig x.1 x.2.2 hcls
      hbeo.1 hbeo.2 hago
    obtain ⟨hg1, hg2, hle, hs63, hnb1, hne1, -, -, -, -, hnplc, hplt⟩ :=
      classifyNode_internal_facts mc lbs ubs orig x.1 x.2.2 hcls
    rcases hq with hq | hq
    · subst hq
      refine ⟨rfl, ?_, ?_, ?_⟩
      · simp only [mk_left_child]
        omega
      · simp only [mk_left_child]
        omega
      · show range_agree mc (x.1.split_idx + 1) x.1.nbegin (x.1.nbegin + x.2.2)
        rw [hnb1]
        exact hana.2.1
    · subst hq
      refine ⟨rfl, ?_, ?_, ?_⟩
      · simp only [mk_right_child]
        omega
      · simp only [mk_right_child]
        omega
      · show range_agree mc (x.1.split_idx + 1) (x.1.nbegin + x.2.2) x.1.nend
        rw [hnb1, hne1]
        exact hana.2.2
  have hpres : ∀ l, l < T →
      ((tree.take nb ++ fin ++ cs).getD l dummy_node).nbegin
          = (tree.getD l dummy_node).nbegin ∧
        ((tree.take nb ++ fin ++ cs).getD l dummy_node).nend
          = (tree.getD l dummy_node).nend := by
    intro l hl
    by_cases hlnb : l < nb
    · rw [hR1 l hlnb]
      exact ⟨rfl, rfl⟩
    · have hj : l = nb + (l - nb) := by omega
      have hjlt : l - nb < curN := by omega
      rw [hj, hR2 _ hjlt]
      rcases hclnc (cl.getD (l - nb) dummy_cl) (getD_mem_of_lt _ _ _ (by omega)) with h0 | h2
      · rw [(hspec (l - nb) (by omega)).1 h0]
        have hlf := classifyNode_leaf_facts mc lbs ubs (tree.getD (nb + (l - nb)) dummy_node)
          (cl.getD (l - nb) dummy_cl).1 (cl.getD (l - nb) dummy_cl).2.2 (hcls0 _ hjlt h0)
        simp only [finalize_leaf]
        exact ⟨hlf.1, hlf.2.1⟩
      · obtain ⟨k, _, hk2, _, _⟩ := (hspec (l - nb) (by omega)).2 h2
        rw [hk2]
        have hif := classifyNode_internal_facts mc lbs ubs
          (tree.getD (nb + (l - nb)) dummy_node)
          (cl.getD (l - nb) dummy_cl).1 (cl.getD (l - nb) dummy_cl).2.2 (hcls2 _ hjlt h2)
        simp only [finalize_internal]
        exact ⟨hif.2.2.2.2.1, hif.2.2.2.2.2.1⟩
  refine ⟨?_, ?_, ?_, ?_⟩
  · rw [hlen']
    omega
  · intro i hi
    rw [hlen'] at hi
    by_cases hiT : i < T
    · rw [(hpres i hiT).1, (hpres i hiT).2]
      exact hrange i hiT
    · have hk : i = T + (i - T) := by omega
      rw [hk, hR3]
      have hmem : cs.getD (i - T) dummy_node ∈ cs := getD_mem_of_lt _ _ _ (by omega)
      exact ⟨(hcsfacts2 _ hmem).2.1, (hcsfacts2 _ hmem).2.2.1⟩
  · intro i h1 h2
    rw [hlen'] at h1 h2
    have hk : i = T + (i - T) := by omega
    rw [hk, hR3]
    have hmem : cs.getD (i - T) dummy_node ∈ cs := getD_mem_of_lt _ _ _ (by omega)
    exact ⟨(hcsfacts2 _ hmem).1, (hcsfacts2 _ hmem).2.2.2⟩
  · intro i hi
    rw [hlen'] at hi
    have hiT : i < T := by omega
    intro hleft
    by_cases hlnb : i < nb
    · rw [hR1 i hlnb] at hleft ⊢
      obtain ⟨l, hl1, hl2, hl3, hl4⟩ := hok i (by omega) hleft
      refine ⟨l, hl1, by rw [hlen']; omega, ?_, ?_⟩
      · rw [(hpres l hl2).2]
        exact hl3
      · rw [(hpres l hl2).2]
        exact hl4
    · have hj : i = nb + (i - nb) := by omega
      have hjlt : i - nb < curN := by omega
      rw [hj, hR2 _ hjlt] at hleft ⊢
      rcases hclnc (cl.getD (i - nb) dummy_cl) (getD_mem_of_lt _ _ _ (by omega)) with h0 | h2
      · rw [(hspec (i - nb) (by omega)).1 h0] at hleft
        have hlf := classifyNode_leaf_facts mc lbs ubs (tree.getD (nb + (i - nb)) dummy_node)
          (cl.getD (i - nb) dummy_cl).1 (cl.getD (i - nb) dummy_cl).2.2 (hcls0 _ hjlt h0)
        have hfr := hfreshlev2 (i - nb) hjlt
        simp only [finalize_leaf] at hleft
        rw [hlf.2.2.2.1, hfr.1] at hleft
        exact absurd rfl hleft
      · obtain ⟨k, hk1, hk2, hk3, hk4⟩ := (hspec (i - nb) (by omega)).2 h2
        have hbeo := hrange (nb + (i - nb)) (by omega)
        have hfr := hfreshlev2 (i - nb) hjlt
        have hana := internal_classify_analysis mc P lbs ubs hsort
          (tree.getD (nb + (i - nb)) dummy_node) (cl.getD (i - nb) dummy_cl).1
          (cl.getD (i - nb) dummy_cl).2.2 (hcls2 _ hjlt h2) hbeo.1 hbeo.2 hfr.2
        obtain ⟨hg1, hg2, hle, hs63, hnb1, hne1, -, -, -, -, hnplc, hplt⟩ :=
          classifyNode_internal_facts mc lbs ubs (tree.getD (nb + (i - nb)) dummy_node)
            (cl.getD (i - nb) dummy_cl).1 (cl.getD (i - nb) dummy_cl).2.2 (hcls2 _ hjlt h2)
        rw [hk2]
        refine ⟨T + 0 + k, ?_, ?_, ?_, ?_⟩
        · simp [finalize_internal]
        · rw [hlen']
          omega
        · rw [show T + 0 + k = T + (0 + k) by omega, hR3, show (0 + k) = k by omega, hk3]
          simp only [mk_left_child]
          omega
        · rw [show T + 0 + k = T + (0 + k) by omega, hR3, show (0 + k) = k by omega, hk3]
          simp only [mk_left_child, finalize_internal]
          rw [hnb1]
          exact hana.1

/-- The split-rule invariant carries to the tree the level loop
returns: at the end every node satisfies the C5 relation. -/
theorem buildLoop_split_inv (mc : ℕ → ℕ) (P : ℕ) (lbs ubs : ℕ → Box4)
    (hsort : ∀ i j, i ≤ j → j < P → mc i ≤ mc j) :
    ∀ (fuel : ℕ) (tree : List bvh_node) (curN : ℕ) (t : List bvh_node),
      split_inv mc P tree curN → buildLoop mc lbs ubs fuel tree curN = some t →
      ∀ i, i < t.length → split_ok mc t i := by
  intro fuel
  induction fuel with
  | zero =>
    intro tree curN t _ h
    exact absurd h (by simp [buildLoop])
  | succ fuel ih =>
    intro tree curN t hinv h
    by_cases hc0 : curN = 0
    · subst hc0
      rw [buildLoop_done] at h
      have ht : tree = t := Option.some.inj h
      subst ht
      obtain ⟨_, _, _, hok⟩ := hinv
      intro i hi
      exact hok i (by omega)
    · rw [buildLoop_succ mc lbs ubs fuel tree curN hc0] at h
      exact ih _ _ t (split_inv_step mc P lbs ubs hsort tree curN hinv hc0) h

/-- C5: bit-flip split rule.  For sorted 64-bit Morton codes, every
internal node `N` of the completed tree stores in `split_idx` the
index, counted from the most significant bit, of the first bit at which
the codes of its two children's boundary particles differ: with
`l = N.left`, `first_diff_bit(mcodes[tree[l].end - 1], mcodes[tree[l].end])
= N.split_idx`. -/
theorem bvh_split_rule (nparts : ℕ) (mc : ℕ → ℕ) (lbs ubs : ℕ → Box4) (t : List bvh_node)
    (hsort : ∀ j, j < nparts → ∀ i, i ≤ j → mc i ≤ mc j)
    (hbound : ∀ i, i < nparts → mc i < 2 ^ 64)
    (ht : construct_bvh_tree nparts mc lbs ubs = some t) :
    ∀ i, i < t.length → (t.getD i dummy_node).left ≠ -1 →
      ∃ l : ℕ, (t.getD i dummy_node).left = (l : Int) ∧ l < t.length ∧
        0 < (t.getD l dummy_node).nend ∧
        first_diff_bit (mc ((t.getD l dummy_node).nend - 1)) (mc ((t.getD l dummy_node).nend))
          = (t.getD i dummy_node).split_idx := by
  rcases Nat.eq_zero_or_pos nparts with hP | hP
  · subst hP
    have h0 : construct_bvh_tree 0 mc lbs ubs
        = some [⟨0, 0, -1, -1, -1, default_lb, default_ub, 1, 0⟩] := rfl
    rw [h0] at ht
    have ht2 := Option.some.inj ht
    subst ht2
    intro i hi hleft
    have hi0 : i = 0 := by
      simp only [List.length_cons, List.length_nil] at hi
      omega
    subst hi0
    exact absurd rfl hleft
  · have hsort' : ∀ i j, i ≤ j → j < nparts → mc i ≤ mc j := fun i j h1 h2 => hsort j h2 i h1
    have hroot : range_agree mc 0 0 nparts := by
      intro i1 i2 _ h2 _ h4
      simp only [Nat.sub_zero]
      rw [Nat.div_eq_of_lt (hbound i1 h2), Nat.div_eq_of_lt (hbound i2 h4)]
    rw [construct_bvh_tree] at ht
    rcases hb : buildLoop mc lbs ubs 66 [rootNode nparts] 1 with _ | t0
    · rw [hb] at ht
      simp at ht
    · rw [hb] at ht
      simp only [Option.map_some'] at ht
      have hback : bvh_aabb_backpass t0 = t := Option.some.inj ht
      have hinv0 : split_inv mc nparts [rootNode nparts] 1 := by
        refine ⟨by simp, ?_, ?_, ?_⟩
        · intro i hi
          have hi0 : i = 0 := by
            simp only [List.length_cons, List.length_nil] at hi
            omega
          subst hi0
          constructor
          · simpa [rootNode] using hP
          · simp [rootNode]
        · intro i h1 h2
          have hi0 : i = 0 := by
            simp only [List.length_cons, List.length_nil] at h2
            omega
          subst hi0
          exact ⟨rfl, hroot⟩
        · intro i hi
          simp at hi
      have hok0 := buildLoop_split_inv mc nparts lbs ubs hsort' 66 [rootNode nparts] 1 t0
        hinv0 hb
      subst hback
      intro i hi hleft
      rw [backpass_length] at hi
      have hsame := backpass_same t0
      have hleft0 : (t0.getD i dummy_node).left ≠ -1 := by
        rw [← (hsame i).2.2.2.1]
        exact hleft
      obtain ⟨l, hl1, hl2, hl3, hl4⟩ := hok0 i hi hleft0
      refine ⟨l, ?_, ?_, ?_, ?_⟩
      · rw [(hsame i).2.2.2.1]
        exact hl1
      · rw [backpass_length]
        exact hl2
      · rw [(hsame l).2.1]
        exact hl3
      · rw [(hsame l).2.1, (hsame i).2.2.2.2.2.2]
        exact hl4

theorem bvh_split_rule_witness :
    ∃ l : ℕ, (treeW.getD 0 dummy_node).left = (l : Int) ∧ l < treeW.length ∧
      0 < (treeW.getD l dummy_node).nend ∧
      first_diff_bit (mcW2 ((treeW.getD l dummy_node).nend - 1))
          (mcW2 ((treeW.getD l dummy_node).nend))
        = (treeW.getD 0 dummy_node).split_idx :=
  bvh_split_rule 2 mcW2 (fun _ => boxW) (fun _ => boxW2) treeW (by decide) (by decide)
    (by decide) 0 (by decide) (by decide)
